import Mathlib

/-!
A shallow embedding of `leptjson.c` (tutorial02 of the JSON tutorial).

The input of `lept_parse` is a NUL-terminated C string.  A text is modelled as
the list of the characters stored before the terminator that ends the buffer;
the cursor `c->json` is the list of the characters that remain from the cursor
on.  Reading one position past the last stored character yields the terminator
`NUL`; reading further, or past a `NUL`, is a fault.  The `assert` of the
`EXPECT` macro is a fault as well, so the recognizers return
`Except Fault _`.

`strtod`, `HUGE_VAL` and the comparison of doubles come from the C library and
are parameters of the model (`Libc`).
-/

namespace LeptJson

/-- Modelled from the spec: the tag of a value, declared in `leptjson.h`
(`lept_type`); the tags are Null, False, True and Number. -/
inductive lept_type where
  | LEPT_NULL
  | LEPT_FALSE
  | LEPT_TRUE
  | LEPT_NUMBER
  deriving DecidableEq, Repr

/-- Modelled from the spec: the status codes of `leptjson.h` returned by
`lept_parse` (Ok, ExpectValue, InvalidValue, RootNotSingular, NumberTooBig). -/
inductive Status where
  | LEPT_PARSE_OK
  | LEPT_PARSE_EXPECT_VALUE
  | LEPT_PARSE_INVALID_VALUE
  | LEPT_PARSE_ROOT_NOT_SINGULAR
  | LEPT_PARSE_NUMBER_TOO_BIG
  deriving DecidableEq, Repr

open lept_type Status

/-- Modelled from the spec: the value slot of `leptjson.h` (`lept_value`), a
payload `n` of the floating-point type `F` and a tag `type`. -/
structure lept_value (F : Type) where
  n : F
  type : lept_type

/-- The parsing context of `leptjson.c`: the cursor into the text. -/
structure lept_context where
  json : List Char

/-- What the C library gives to `lept_parse_number`: `strtod` applied to the
text at a pointer, the constant `HUGE_VAL`, unary minus and `==` on doubles. -/
structure Libc (F : Type) where
  strtod : List Char → F
  HUGE_VAL : F
  neg : F → F
  feq : F → F → Bool

/-- The two ways a run can leave defined behaviour: a failed `assert`, and a
read or a cursor move beyond the terminator of the text. -/
inductive Fault where
  | assertion
  | outOfBounds
  deriving DecidableEq, Repr

/-- The terminator of a C string. -/
def NUL : Char := Char.ofNat 0

/-- The function `isdigit` of `ctype.h` (C locale). -/
def isdigit (ch : Char) : Bool := decide (48 ≤ ch.toNat ∧ ch.toNat ≤ 57)

/-- The function `isblank` of `ctype.h` (C locale): space and horizontal tab. -/
def isblank (ch : Char) : Bool := ch == ' ' || ch == '\t'

/-- The read `p[k]` for a cursor `p`: the terminator right after the last
stored character, a fault beyond it or beyond a `NUL`. -/
def charAt : List Char → Nat → Except Fault Char
  | [], 0 => .ok NUL
  | [], _ + 1 => .error .outOfBounds
  | ch :: _, 0 => .ok ch
  | ch :: s, k + 1 => if ch = NUL then .error .outOfBounds else charAt s k

/-- The move `p += k` of a cursor `p`: a fault when it would step over the
terminator. -/
def advance : List Char → Nat → Except Fault (List Char)
  | s, 0 => .ok s
  | [], _ + 1 => .error .outOfBounds
  | ch :: s, k + 1 => if ch = NUL then .error .outOfBounds else advance s k

/-- The macro `EXPECT(c, ch)`: `assert(*c->json == (ch)); c->json++;`. -/
def EXPECT (c : lept_context) (ch : Char) : Except Fault lept_context :=
  (charAt c.json 0).bind fun x =>
    if x = ch then (advance c.json 1).bind fun s => .ok { json := s }
    else .error .assertion

/-- The loop `while (*p == ' ' || *p == '\t' || *p == '\n' || *p == '\r') p++;`
of `lept_parse_whitespace`, on the text at `p`. -/
def skip_whitespace : List Char → List Char
  | [] => []
  | ch :: s =>
    if ch = ' ' ∨ ch = '\t' ∨ ch = '\n' ∨ ch = '\r' then skip_whitespace s
    else ch :: s

/-- The function `lept_parse_whitespace`. -/
def lept_parse_whitespace (c : lept_context) : lept_context :=
  { json := skip_whitespace c.json }

/-- The function `lept_parse_true`. -/
def lept_parse_true {F : Type} (c : lept_context) (v : lept_value F) :
    Except Fault (Status × lept_context × lept_value F) :=
  (EXPECT c 't').bind fun c =>
  (charAt c.json 0).bind fun x0 =>
  if x0 ≠ 'r' then .ok (LEPT_PARSE_INVALID_VALUE, c, v) else
  (charAt c.json 1).bind fun x1 =>
  if x1 ≠ 'u' then .ok (LEPT_PARSE_INVALID_VALUE, c, v) else
  (charAt c.json 2).bind fun x2 =>
  if x2 ≠ 'e' then .ok (LEPT_PARSE_INVALID_VALUE, c, v) else
  (advance c.json 3).bind fun s =>
  .ok (LEPT_PARSE_OK, { json := s }, { v with type := LEPT_TRUE })

/-- The function `lept_parse_false`. -/
def lept_parse_false {F : Type} (c : lept_context) (v : lept_value F) :
    Except Fault (Status × lept_context × lept_value F) :=
  (EXPECT c 'f').bind fun c =>
  (charAt c.json 0).bind fun x0 =>
  if x0 ≠ 'a' then .ok (LEPT_PARSE_INVALID_VALUE, c, v) else
  (charAt c.json 1).bind fun x1 =>
  if x1 ≠ 'l' then .ok (LEPT_PARSE_INVALID_VALUE, c, v) else
  (charAt c.json 2).bind fun x2 =>
  if x2 ≠ 's' then .ok (LEPT_PARSE_INVALID_VALUE, c, v) else
  (charAt c.json 3).bind fun x3 =>
  if x3 ≠ 'e' then .ok (LEPT_PARSE_INVALID_VALUE, c, v) else
  (advance c.json 4).bind fun s =>
  .ok (LEPT_PARSE_OK, { json := s }, { v with type := LEPT_FALSE })

/-- The function `lept_parse_null`. -/
def lept_parse_null {F : Type} (c : lept_context) (v : lept_value F) :
    Except Fault (Status × lept_context × lept_value F) :=
  (EXPECT c 'n').bind fun c =>
  (charAt c.json 0).bind fun x0 =>
  if x0 ≠ 'u' then .ok (LEPT_PARSE_INVALID_VALUE, c, v) else
  (charAt c.json 1).bind fun x1 =>
  if x1 ≠ 'l' then .ok (LEPT_PARSE_INVALID_VALUE, c, v) else
  (charAt c.json 2).bind fun x2 =>
  if x2 ≠ 'l' then .ok (LEPT_PARSE_INVALID_VALUE, c, v) else
  (advance c.json 3).bind fun s =>
  .ok (LEPT_PARSE_OK, { json := s }, { v with type := LEPT_NULL })

/-- The loop `while (isdigit(*c->json)) c->json++;` of `lept_parse_number`,
on the text at the cursor. -/
def skip_digits : List Char → List Char
  | [] => []
  | ch :: s => if isdigit ch then skip_digits s else ch :: s

/-- Lines 51-52 of `lept_parse_number`: `if (*c->json == '-') c->json++;`. -/
def sign_part (p : List Char) : Except Fault (List Char) :=
  (charAt p 0).bind fun x =>
  if x = '-' then advance p 1 else .ok p

/-- Lines 59-71 of `lept_parse_number`, the integer part.  The flag is `false`
when the block executes `return LEPT_PARSE_INVALID_VALUE`; the list is the
cursor when the block is left. -/
def int_part (p : List Char) : Except Fault (Bool × List Char) :=
  (charAt p 0).bind fun x =>
  if ¬ isdigit x then .ok (false, p) else
  (if x = '0' then (charAt p 1).bind fun y => .ok (isdigit y)
   else .ok false).bind fun leading =>
  if leading then .ok (false, p) else
  (advance p 1).bind fun q =>
  .ok (true, skip_digits q)

/-- Lines 76-86 of `lept_parse_number`, the fraction part (same convention as
`int_part`). -/
def frac_part (p : List Char) : Except Fault (Bool × List Char) :=
  (charAt p 0).bind fun x =>
  if x = '.' then
    (advance p 1).bind fun q =>
    (charAt q 0).bind fun y =>
    if ¬ isdigit y then .ok (false, q) else
    (advance q 1).bind fun r =>
    .ok (true, skip_digits r)
  else .ok (true, p)

/-- Lines 91-105 of `lept_parse_number`, the exponent part (same convention as
`int_part`). -/
def exp_part (p : List Char) : Except Fault (Bool × List Char) :=
  (charAt p 0).bind fun x =>
  if x = 'e' ∨ x = 'E' then
    (advance p 1).bind fun q =>
    (charAt q 0).bind fun y =>
    (if y = '+' ∨ y = '-' then advance q 1 else .ok q).bind fun r =>
    (charAt r 0).bind fun z =>
    if ¬ isdigit z then .ok (false, r) else
    (advance r 1).bind fun t =>
    .ok (true, skip_digits t)
  else .ok (true, p)

/-- The function `lept_parse_number`: the scan of lines 51-105 (`sign_part`,
`int_part`, `frac_part`, `exp_part`), the check of the character after the
lexeme, and the conversion by `strtod` from `origin`. -/
def lept_parse_number {F : Type} (libc : Libc F) (c : lept_context) (v : lept_value F) :
    Except Fault (Status × lept_context × lept_value F) :=
  let origin := c.json
  (sign_part c.json).bind fun p0 =>
  (int_part p0).bind fun r1 =>
  if ¬ r1.1 then .ok (LEPT_PARSE_INVALID_VALUE, { json := r1.2 }, v) else
  (frac_part r1.2).bind fun r2 =>
  if ¬ r2.1 then .ok (LEPT_PARSE_INVALID_VALUE, { json := r2.2 }, v) else
  (exp_part r2.2).bind fun r3 =>
  if ¬ r3.1 then .ok (LEPT_PARSE_INVALID_VALUE, { json := r3.2 }, v) else
  (charAt r3.2 0).bind fun x =>
  if x ≠ NUL ∧ ¬ isblank x then .ok (LEPT_PARSE_INVALID_VALUE, { json := r3.2 }, v) else
  let end_ := r3.2
  let v1 : lept_value F := { v with n := libc.strtod origin }
  if libc.feq v1.n libc.HUGE_VAL ∨ libc.feq v1.n (libc.neg libc.HUGE_VAL) then
    .ok (LEPT_PARSE_NUMBER_TOO_BIG, { json := origin }, v1)
  else
    .ok (LEPT_PARSE_OK, { json := end_ }, { v1 with type := LEPT_NUMBER })

/-- The function `lept_parse_value`: the `switch` on the character at the
cursor. -/
def lept_parse_value {F : Type} (libc : Libc F) (c : lept_context) (v : lept_value F) :
    Except Fault (Status × lept_context × lept_value F) :=
  (charAt c.json 0).bind fun x =>
  if x = 't' then lept_parse_true c v
  else if x = 'f' then lept_parse_false c v
  else if x = 'n' then lept_parse_null c v
  else if x = NUL then .ok (LEPT_PARSE_EXPECT_VALUE, c, v)
  else lept_parse_number libc c v

/-- The function `lept_parse`: the status it returns and the value slot it
leaves. -/
def lept_parse {F : Type} (libc : Libc F) (v : lept_value F) (json : List Char) :
    Except Fault (Status × lept_value F) :=
  let c : lept_context := { json := json }
  let v0 : lept_value F := { v with type := LEPT_NULL }
  let c1 := lept_parse_whitespace c
  (lept_parse_value libc c1 v0).bind fun r =>
  if r.1 = LEPT_PARSE_OK then
    let c2 := lept_parse_whitespace r.2.1
    (charAt c2.json 0).bind fun x =>
    if x ≠ NUL then
      .ok (LEPT_PARSE_ROOT_NOT_SINGULAR, { r.2.2 with type := LEPT_NULL })
    else .ok (r.1, r.2.2)
  else .ok (r.1, r.2.2)

/-- The function `lept_get_type`. -/
def lept_get_type {F : Type} (v : lept_value F) : lept_type := v.type

/-- The function `lept_get_number`: `assert(v->type == LEPT_NUMBER)`, then the
payload. -/
def lept_get_number {F : Type} (v : lept_value F) : Except Fault F :=
  if v.type = LEPT_NUMBER then .ok v.n else .error .assertion

/-- The decimal exponent written in a text: the digits after the first `e` or
`E` and an optional sign, read as a natural number; zero when the sign is `-`
or when there is no exponent. -/
def demoExponent (s : List Char) : Nat :=
  let value := fun (ds : List Char) => ds.foldl (fun acc ch => 10 * acc + (ch.toNat - 48)) 0
  match (s.dropWhile fun ch => ch ≠ 'e' ∧ ch ≠ 'E').drop 1 with
  | '-' :: _ => 0
  | '+' :: u => value (u.takeWhile isdigit)
  | u => value (u.takeWhile isdigit)

/-- A C library for running the model on examples.  A double is stood for by
its decimal exponent, a natural number that saturates at 309, which plays
`HUGE_VAL`: only the overflow test behaves like the real conversion. -/
def demoLibc : Libc Nat where
  strtod := fun s => min (demoExponent s) 309
  HUGE_VAL := 309
  neg := fun x => x
  feq := fun x y => decide (x = y)

/-! ## The grammar of the specification -/

/-- A whitespace character of the specification: space, tab, newline or
carriage return. -/
def IsWs (ch : Char) : Prop := ch = ' ' ∨ ch = '\t' ∨ ch = '\n' ∨ ch = '\r'

/-- A run of whitespace characters. -/
def WsRun (s : List Char) : Prop := ∀ ch ∈ s, IsWs ch

/-- The production `digit`: one of the ten decimal digits. -/
def Digit (ch : Char) : Prop :=
  ch ∈ ['0', '1', '2', '3', '4', '5', '6', '7', '8', '9']

/-- The production `digit*`. -/
def Digits (s : List Char) : Prop := ∀ ch ∈ s, Digit ch

/-- The production `int := '0' | digit1-9 digit*`. -/
def IsInt (s : List Char) : Prop :=
  s = ['0'] ∨ ∃ d ds, s = d :: ds ∧ Digit d ∧ d ≠ '0' ∧ Digits ds

/-- The production `frac := '.' digit+`. -/
def IsFrac (s : List Char) : Prop :=
  ∃ d ds, s = '.' :: d :: ds ∧ Digit d ∧ Digits ds

/-- The production `exp := ('e'|'E') ('+'|'-')? digit+`. -/
def IsExp (s : List Char) : Prop :=
  ∃ e sg d ds, s = e :: (sg ++ d :: ds) ∧ (e = 'e' ∨ e = 'E') ∧
    (sg = [] ∨ sg = ['+'] ∨ sg = ['-']) ∧ Digit d ∧ Digits ds

/-- The production `number := '-'? int frac? exp?`. -/
def IsNumber (s : List Char) : Prop :=
  ∃ sg i f e, s = sg ++ (i ++ (f ++ e)) ∧ (sg = [] ∨ sg = ['-']) ∧ IsInt i ∧
    (f = [] ∨ IsFrac f) ∧ (e = [] ∨ IsExp e)

/-- The character at the head of a text, the terminator when nothing is
left. -/
def peek (s : List Char) : Char := s.headD NUL

/-! ## The scan of `lept_parse_number` as functions of the text

These functions are not part of the source: they are the closed forms that the
blocks of `lept_parse_number` are proved to compute (`int_part_eq`,
`frac_part_eq`, `exp_part_eq`, `lept_parse_number_eq`). -/

instance (ch : Char) : Decidable (Digit ch) := by
  unfold Digit; infer_instance

instance (ch : Char) : Decidable (IsWs ch) := by
  unfold IsWs; infer_instance

instance (s : List Char) : Decidable (WsRun s) := by
  unfold WsRun; infer_instance

instance (s : List Char) : Decidable (Digits s) := by
  unfold Digits; infer_instance

/-- The cursor after the optional `-` (lines 51-52). -/
def sign_scan (s : List Char) : List Char :=
  if peek s = '-' then s.tail else s

/-- The flag and the cursor after the integer part (lines 59-71). -/
def int_scan (p : List Char) : Bool × List Char :=
  if isdigit (peek p) = true then
    (if peek p = '0' ∧ isdigit (peek p.tail) = true then (false, p)
      else (true, skip_digits p.tail))
  else (false, p)

/-- The flag and the cursor after the fraction part (lines 76-86). -/
def frac_scan (p : List Char) : Bool × List Char :=
  if peek p = '.' then
    (if isdigit (peek p.tail) = true then (true, skip_digits p.tail.tail)
      else (false, p.tail))
  else (true, p)

/-- The cursor after the optional sign of an exponent (lines 93-94). -/
def after_exp_sign (q : List Char) : List Char :=
  if peek q = '+' ∨ peek q = '-' then q.tail else q

/-- The flag and the cursor after the exponent part (lines 91-105). -/
def exp_scan (p : List Char) : Bool × List Char :=
  if peek p = 'e' ∨ peek p = 'E' then
    (if isdigit (peek (after_exp_sign p.tail)) = true then
        (true, skip_digits (after_exp_sign p.tail).tail)
      else (false, after_exp_sign p.tail))
  else (true, p)

/-- The scan of lines 51-105 as one function of the text at the cursor: the
flag tells whether the scan reached line 107, the list is the cursor where it
stopped. -/
def scan (s : List Char) : Bool × List Char :=
  let r1 := int_scan (sign_scan s)
  if r1.1 = true then
    let r2 := frac_scan r1.2
    if r2.1 = true then exp_scan r2.2 else r2
  else r1

/-- The test `v->n == HUGE_VAL || v->n == -HUGE_VAL` on the conversion of the
text at `origin`. -/
def tooBig {F : Type} (libc : Libc F) (origin : List Char) : Bool :=
  libc.feq (libc.strtod origin) libc.HUGE_VAL ||
    libc.feq (libc.strtod origin) (libc.neg libc.HUGE_VAL)

/-- The check of line 108 on the character where the scan stopped: the
terminator, or a character of the class `isblank`. -/
def boundary (x : Char) : Bool := x == NUL || isblank x

/-- What stops the scan of a number: a character that is no digit, no `.`, no
`e` and no `E`. -/
def Stops (x : Char) : Prop := ¬ Digit x ∧ x ≠ '.' ∧ x ≠ 'e' ∧ x ≠ 'E'

instance (x : Char) : Decidable (Stops x) := by
  unfold Stops; infer_instance

/-- The length of the C string at a cursor: the index of its first
terminator. -/
def strlen : List Char → Nat
  | [] => 0
  | ch :: s => if ch = NUL then 0 else strlen s + 1

/-! ## The conversion of the specification -/

/-- The natural number written by a run of decimal digits. -/
def digitsValue (ds : List Char) : Nat :=
  ds.foldl (fun acc ch => 10 * acc + (ch.toNat - 48)) 0

/-- The decimal exponent written after the `e` or `E` of a lexeme: an
optional sign and a run of digits. -/
def exponentValue (t : List Char) : Int :=
  match t with
  | '-' :: u => - (digitsValue u : Int)
  | '+' :: u => (digitsValue u : Int)
  | u => (digitsValue u : Int)

/-- The rational number written before the `e` or `E` of a lexeme: an
optional `-`, the digits of the integer part and, after a `.`, the digits of
the fraction. -/
def mantissaValue (m : List Char) : ℚ :=
  let body := if peek m = '-' then m.tail else m
  let ip := body.takeWhile fun ch => ch ≠ '.'
  let fp := (body.dropWhile fun ch => ch ≠ '.').drop 1
  (if peek m = '-' then -1 else 1) *
    ((digitsValue ip : ℚ) + (digitsValue fp : ℚ) / 10 ^ fp.length)

/-- Modelled from the spec: the mathematical value of a decimal literal of the
number grammar, which the conversion of `lept_parse_number` (the `strtod` of
the C library, not part of the sources) has to round: the mantissa times ten
to the exponent. -/
def decimalValue (s : List Char) : ℚ :=
  mantissaValue (s.takeWhile fun ch => ch ≠ 'e' ∧ ch ≠ 'E') *
    10 ^ exponentValue ((s.dropWhile fun ch => ch ≠ 'e' ∧ ch ≠ 'E').drop 1)

/-- Modelled from the spec: the contract of the conversion, "conversion must
match IEEE-754 double rounding of the decimal literal": on a lexeme of the
grammar, `strtod` is a rounding `round` of the mathematical value that also
sees whether the lexeme starts with `-`, so that the sign of a zero is kept
(the conversions of `-0` and of `0` may differ). -/
def Converts {F : Type} (libc : Libc F) (round : Bool → ℚ → F) : Prop :=
  ∀ M, IsNumber M → libc.strtod M = round (decide (peek M = '-')) (decimalValue M)

/-- A rounding of magnitudes for running the model on examples: exact inside
the range of a double, and `2 ^ 1024`, which stands for `HUGE_VAL`, with the
sign of the number beyond it. -/
def saturate (q : ℚ) : ℚ :=
  if 2 ^ 1024 ≤ q then 2 ^ 1024 else if q ≤ -(2 ^ 1024) then -(2 ^ 1024) else q

/-- A rounding for running the model on examples: the sign bit of the lexeme
and the saturated value, so that `-0` and `0` are told apart. -/
def signedRound (negative : Bool) (q : ℚ) : Bool × ℚ := (negative, saturate q)

/-- A C library for running the model on examples: a double is a sign bit and
a rational number, `strtod` gives the sign of the literal and its mathematical
value saturated at the range of a double, and `==` compares the numbers (so
that `-0 == 0`). -/
def exactLibc : Libc (Bool × ℚ) where
  strtod := fun s => signedRound (decide (peek s = '-')) (decimalValue s)
  HUGE_VAL := (false, 2 ^ 1024)
  neg := fun x => (!x.1, -x.2)
  feq := fun x y => decide (x.2 = y.2)

/-! ## Reads, moves and the two loops -/

theorem bind_ok {ε α β : Type} (a : α) (f : α → Except ε β) :
    (Except.ok a : Except ε α).bind f = f a := rfl

theorem charAt_zero (s : List Char) : charAt s 0 = .ok (peek s) := by
  cases s <;> rfl

theorem charAt_succ_cons (ch : Char) (s : List Char) (k : Nat) (h : ch ≠ NUL) :
    charAt (ch :: s) (k + 1) = charAt s k := by
  simp [charAt, h]

theorem advance_succ_cons (ch : Char) (s : List Char) (k : Nat) (h : ch ≠ NUL) :
    advance (ch :: s) (k + 1) = advance s k := by
  cases k <;> simp [advance, h]

theorem advance_zero (s : List Char) : advance s 0 = .ok s := by
  cases s <;> rfl

theorem isdigit_iff (ch : Char) : isdigit ch = true ↔ Digit ch := by
  constructor
  · intro h
    simp only [isdigit, decide_eq_true_eq] at h
    obtain ⟨h1, h2⟩ := h
    have hc : ch = Char.ofNat ch.toNat := (Char.ofNat_toNat ch).symm
    generalize ch.toNat = n at h1 h2 hc
    subst hc
    interval_cases n <;> simp [Digit]
  · intro h
    simp only [Digit, List.mem_cons, List.mem_singleton] at h
    rcases h with h | h | h | h | h | h | h | h | h | h | h <;> first | (subst h; decide) | simp at h

theorem not_isdigit_iff (ch : Char) : isdigit ch = false ↔ ¬ Digit ch := by
  rw [← isdigit_iff]; simp

theorem digit_ne_NUL {ch : Char} (h : Digit ch) : ch ≠ NUL := by
  rintro rfl; revert h; decide

theorem isWs_ne_NUL {ch : Char} (h : IsWs ch) : ch ≠ NUL := by
  rintro rfl; revert h; decide

theorem isWs_not_digit {ch : Char} (h : IsWs ch) : ¬ Digit ch := by
  rcases h with h | h | h | h <;> subst h <;> decide

theorem peek_nil : peek [] = NUL := rfl

theorem peek_cons (ch : Char) (s : List Char) : peek (ch :: s) = ch := rfl

theorem digits_nil : Digits [] := by
  intro ch h; simp at h

theorem digits_cons {d : Char} {ds : List Char} (hd : Digit d) (hds : Digits ds) :
    Digits (d :: ds) := by
  intro ch h
  rcases List.mem_cons.mp h with h | h
  · exact h ▸ hd
  · exact hds ch h

theorem digits_head {d : Char} {ds : List Char} (h : Digits (d :: ds)) : Digit d :=
  h d (List.mem_cons_self d ds)

theorem digits_tail {d : Char} {ds : List Char} (h : Digits (d :: ds)) : Digits ds :=
  fun ch hch => h ch (List.mem_cons_of_mem d hch)

theorem wsRun_head {d : Char} {ds : List Char} (h : WsRun (d :: ds)) : IsWs d :=
  h d (List.mem_cons_self d ds)

theorem wsRun_tail {d : Char} {ds : List Char} (h : WsRun (d :: ds)) : WsRun ds :=
  fun ch hch => h ch (List.mem_cons_of_mem d hch)

/-- The digit loop steps over a run of digits that is followed by a character
that is not a digit. -/
theorem skip_digits_append (ds rest : List Char) (hds : Digits ds)
    (hrest : ¬ Digit (peek rest)) : skip_digits (ds ++ rest) = rest := by
  induction ds with
  | nil =>
    cases rest with
    | nil => rfl
    | cons x r =>
      have : isdigit x = false := (not_isdigit_iff x).mpr hrest
      simp [skip_digits, this]
  | cons d ds ih =>
    have hd : isdigit d = true := (isdigit_iff d).mpr (digits_head hds)
    simp [skip_digits, hd, ih (digits_tail hds)]

/-- The digit loop splits the text into the digits it steps over and a rest
that does not start with a digit. -/
theorem skip_digits_spec (s : List Char) :
    ∃ ds, s = ds ++ skip_digits s ∧ Digits ds ∧ ¬ Digit (peek (skip_digits s)) := by
  induction s with
  | nil => exact ⟨[], rfl, digits_nil, by decide⟩
  | cons x r ih =>
    by_cases hx : isdigit x = true
    · obtain ⟨ds, h1, h2, h3⟩ := ih
      refine ⟨x :: ds, ?_, digits_cons ((isdigit_iff x).mp hx) h2, ?_⟩
      · simp only [skip_digits, hx, if_true, List.cons_append]
        exact congrArg _ h1
      · simpa only [skip_digits, hx, if_true] using h3
    · refine ⟨[], ?_, digits_nil, ?_⟩
      · simp [skip_digits, hx]
      · simp only [skip_digits, hx]
        simpa [peek_cons, ← isdigit_iff] using hx

/-- The whitespace loop steps over a run of whitespace that is followed by a
character that is not whitespace. -/
theorem skip_whitespace_append (ws rest : List Char) (hws : WsRun ws)
    (hrest : ¬ IsWs (peek rest)) : skip_whitespace (ws ++ rest) = rest := by
  induction ws with
  | nil =>
    cases rest with
    | nil => rfl
    | cons x r =>
      have hx : ¬ (x = ' ' ∨ x = '\t' ∨ x = '\n' ∨ x = '\r') := hrest
      simp [skip_whitespace, hx]
  | cons d ds ih =>
    have hd : d = ' ' ∨ d = '\t' ∨ d = '\n' ∨ d = '\r' := (wsRun_head hws)
    simp only [List.cons_append, skip_whitespace, hd, if_true]
    exact ih (wsRun_tail hws)

/-- The whitespace loop splits the text into the whitespace it steps over and
a rest that does not start with whitespace. -/
theorem skip_whitespace_spec (s : List Char) :
    ∃ ws, s = ws ++ skip_whitespace s ∧ WsRun ws ∧ ¬ IsWs (peek (skip_whitespace s)) := by
  induction s with
  | nil => exact ⟨[], rfl, by intro ch h; simp at h, by decide⟩
  | cons x r ih =>
    by_cases hx : x = ' ' ∨ x = '\t' ∨ x = '\n' ∨ x = '\r'
    · obtain ⟨ws, h1, h2, h3⟩ := ih
      refine ⟨x :: ws, ?_, ?_, ?_⟩
      · simp only [skip_whitespace, hx, if_true, List.cons_append]
        exact congrArg _ h1
      · intro ch hch
        rcases List.mem_cons.mp hch with h | h
        · exact h ▸ hx
        · exact h2 ch h
      · simpa only [skip_whitespace, hx, if_true] using h3
    · refine ⟨[], ?_, by intro ch h; simp at h, ?_⟩
      · simp [skip_whitespace, hx]
      · simp only [skip_whitespace, hx, if_false]
        exact hx

/-! ## The recognizers in closed form -/

theorem lept_parse_true_match {F : Type} (r : List Char) (v : lept_value F) :
    lept_parse_true { json := 't' :: 'r' :: 'u' :: 'e' :: r } v =
      .ok (LEPT_PARSE_OK, { json := r }, { v with type := LEPT_TRUE }) := by
  have ht : ('t' : Char) ≠ NUL := by decide
  have hr : ('r' : Char) ≠ NUL := by decide
  have hu : ('u' : Char) ≠ NUL := by decide
  have he : ('e' : Char) ≠ NUL := by decide
  simp [lept_parse_true, EXPECT, charAt, advance, ht, hr, hu, he, Except.bind]

theorem lept_parse_true_mismatch {F : Type} (rest : List Char) (v : lept_value F)
    (h : ∀ r, rest ≠ 'r' :: 'u' :: 'e' :: r) :
    lept_parse_true { json := 't' :: rest } v =
      .ok (LEPT_PARSE_INVALID_VALUE, { json := rest }, v) := by
  have ht : ('t' : Char) ≠ NUL := by decide
  have hr : ('r' : Char) ≠ NUL := by decide
  have hu : ('u' : Char) ≠ NUL := by decide
  have n1 : NUL ≠ 'r' := by decide
  have n2 : NUL ≠ 'u' := by decide
  have n3 : NUL ≠ 'e' := by decide
  rcases rest with _ | ⟨a, _ | ⟨b, _ | ⟨c, r⟩⟩⟩
  · simp [lept_parse_true, EXPECT, charAt, advance, ht, Except.bind, n1]
  · by_cases ha : a = 'r'
    · subst ha
      simp [lept_parse_true, EXPECT, charAt, advance, ht, hr, Except.bind, n2]
    · simp [lept_parse_true, EXPECT, charAt, advance, ht, Except.bind, ha]
  · by_cases ha : a = 'r'
    · subst ha
      by_cases hb : b = 'u'
      · subst hb
        simp [lept_parse_true, EXPECT, charAt, advance, ht, hr, hu, Except.bind, n3]
      · simp [lept_parse_true, EXPECT, charAt, advance, ht, hr, Except.bind, hb]
    · simp [lept_parse_true, EXPECT, charAt, advance, ht, Except.bind, ha]
  · by_cases ha : a = 'r'
    · subst ha
      by_cases hb : b = 'u'
      · subst hb
        have hc : c ≠ 'e' := fun hc => h r (by rw [hc])
        simp [lept_parse_true, EXPECT, charAt, advance, ht, hr, hu, Except.bind, hc]
      · simp [lept_parse_true, EXPECT, charAt, advance, ht, hr, Except.bind, hb]
    · simp [lept_parse_true, EXPECT, charAt, advance, ht, Except.bind, ha]

theorem lept_parse_null_match {F : Type} (r : List Char) (v : lept_value F) :
    lept_parse_null { json := 'n' :: 'u' :: 'l' :: 'l' :: r } v =
      .ok (LEPT_PARSE_OK, { json := r }, { v with type := LEPT_NULL }) := by
  have hn : ('n' : Char) ≠ NUL := by decide
  have hu : ('u' : Char) ≠ NUL := by decide
  have hl : ('l' : Char) ≠ NUL := by decide
  simp [lept_parse_null, EXPECT, charAt, advance, hn, hu, hl, Except.bind]

theorem lept_parse_null_mismatch {F : Type} (rest : List Char) (v : lept_value F)
    (h : ∀ r, rest ≠ 'u' :: 'l' :: 'l' :: r) :
    lept_parse_null { json := 'n' :: rest } v =
      .ok (LEPT_PARSE_INVALID_VALUE, { json := rest }, v) := by
  have hn : ('n' : Char) ≠ NUL := by decide
  have hu : ('u' : Char) ≠ NUL := by decide
  have hl : ('l' : Char) ≠ NUL := by decide
  have n1 : NUL ≠ 'u' := by decide
  have n2 : NUL ≠ 'l' := by decide
  rcases rest with _ | ⟨a, _ | ⟨b, _ | ⟨c, r⟩⟩⟩
  · simp [lept_parse_null, EXPECT, charAt, advance, hn, Except.bind, n1]
  · by_cases ha : a = 'u'
    · subst ha
      simp [lept_parse_null, EXPECT, charAt, advance, hn, hu, Except.bind, n2]
    · simp [lept_parse_null, EXPECT, charAt, advance, hn, Except.bind, ha]
  · by_cases ha : a = 'u'
    · subst ha
      by_cases hb : b = 'l'
      · subst hb
        simp [lept_parse_null, EXPECT, charAt, advance, hn, hu, hl, Except.bind, n2]
      · simp [lept_parse_null, EXPECT, charAt, advance, hn, hu, Except.bind, hb]
    · simp [lept_parse_null, EXPECT, charAt, advance, hn, Except.bind, ha]
  · by_cases ha : a = 'u'
    · subst ha
      by_cases hb : b = 'l'
      · subst hb
        have hc : c ≠ 'l' := fun hc => h r (by rw [hc])
        simp [lept_parse_null, EXPECT, charAt, advance, hn, hu, hl, Except.bind, hc]
      · simp [lept_parse_null, EXPECT, charAt, advance, hn, hu, Except.bind, hb]
    · simp [lept_parse_null, EXPECT, charAt, advance, hn, Except.bind, ha]

theorem lept_parse_false_match {F : Type} (r : List Char) (v : lept_value F) :
    lept_parse_false { json := 'f' :: 'a' :: 'l' :: 's' :: 'e' :: r } v =
      .ok (LEPT_PARSE_OK, { json := r }, { v with type := LEPT_FALSE }) := by
  have hf : ('f' : Char) ≠ NUL := by decide
  have ha : ('a' : Char) ≠ NUL := by decide
  have hl : ('l' : Char) ≠ NUL := by decide
  have hs : ('s' : Char) ≠ NUL := by decide
  have he : ('e' : Char) ≠ NUL := by decide
  simp [lept_parse_false, EXPECT, charAt, advance, hf, ha, hl, hs, he, Except.bind]

theorem lept_parse_false_mismatch {F : Type} (rest : List Char) (v : lept_value F)
    (h : ∀ r, rest ≠ 'a' :: 'l' :: 's' :: 'e' :: r) :
    lept_parse_false { json := 'f' :: rest } v =
      .ok (LEPT_PARSE_INVALID_VALUE, { json := rest }, v) := by
  have hf : ('f' : Char) ≠ NUL := by decide
  have hA : ('a' : Char) ≠ NUL := by decide
  have hl : ('l' : Char) ≠ NUL := by decide
  have hs : ('s' : Char) ≠ NUL := by decide
  have n1 : NUL ≠ 'a' := by decide
  have n2 : NUL ≠ 'l' := by decide
  have n3 : NUL ≠ 's' := by decide
  have n4 : NUL ≠ 'e' := by decide
  rcases rest with _ | ⟨a, rest⟩
  · simp [lept_parse_false, EXPECT, charAt, advance, hf, Except.bind, n1]
  by_cases ha : a = 'a'
  swap
  · simp [lept_parse_false, EXPECT, charAt, advance, hf, Except.bind, ha]
  subst ha
  rcases rest with _ | ⟨b, rest⟩
  · simp [lept_parse_false, EXPECT, charAt, advance, hf, hA, Except.bind, n2]
  by_cases hb : b = 'l'
  swap
  · simp [lept_parse_false, EXPECT, charAt, advance, hf, hA, Except.bind, hb]
  subst hb
  rcases rest with _ | ⟨c, rest⟩
  · simp [lept_parse_false, EXPECT, charAt, advance, hf, hA, hl, Except.bind, n3]
  by_cases hc : c = 's'
  swap
  · simp [lept_parse_false, EXPECT, charAt, advance, hf, hA, hl, Except.bind, hc]
  subst hc
  rcases rest with _ | ⟨d, rest⟩
  · simp [lept_parse_false, EXPECT, charAt, advance, hf, hA, hl, hs, Except.bind, n4]
  have hd : d ≠ 'e' := fun hd => h rest (by rw [hd])
  simp [lept_parse_false, EXPECT, charAt, advance, hf, hA, hl, hs, Except.bind, hd]

/-! ## The scan of a number in closed form -/

theorem sign_part_eq (p : List Char) : sign_part p = .ok (sign_scan p) := by
  have hm : ('-' : Char) ≠ NUL := by decide
  rcases p with _ | ⟨x, q⟩
  · have : peek [] ≠ '-' := by decide
    simp [sign_part, sign_scan, charAt_zero, bind_ok, this]
  · by_cases hx : x = '-'
    · subst hx
      simp [sign_part, sign_scan, charAt_zero, bind_ok, peek_cons, advance, hm]
    · simp [sign_part, sign_scan, charAt_zero, bind_ok, peek_cons, hx]

theorem int_part_eq (p : List Char) : int_part p = .ok (int_scan p) := by
  rcases p with _ | ⟨x, q⟩
  · have : isdigit (peek []) = false := by decide
    simp [int_part, int_scan, charAt_zero, bind_ok, this]
  · by_cases hx : isdigit x = true
    · have hn : x ≠ NUL := digit_ne_NUL ((isdigit_iff x).mp hx)
      by_cases h0 : x = '0'
      · subst h0
        by_cases hq : isdigit (peek q) = true
        · simp [int_part, int_scan, charAt_zero, bind_ok, peek_cons, hx, hq, charAt_succ_cons,
            hn]
        · simp [int_part, int_scan, charAt_zero, bind_ok, peek_cons, hx, hq, charAt_succ_cons,
            hn, advance]
      · simp [int_part, int_scan, charAt_zero, bind_ok, peek_cons, hx, h0, advance, hn]
    · simp [int_part, int_scan, charAt_zero, bind_ok, peek_cons, hx]

theorem frac_part_eq (p : List Char) : frac_part p = .ok (frac_scan p) := by
  have hdot : ('.' : Char) ≠ NUL := by decide
  rcases p with _ | ⟨x, q⟩
  · have : peek [] ≠ '.' := by decide
    simp [frac_part, frac_scan, charAt_zero, bind_ok, this]
  · by_cases hx : x = '.'
    · subst hx
      rcases q with _ | ⟨y, t⟩
      · have : isdigit (peek []) = false := by decide
        simp [frac_part, frac_scan, charAt_zero, bind_ok, peek_cons, advance, hdot, this]
      · by_cases hy : isdigit y = true
        · have hn : y ≠ NUL := digit_ne_NUL ((isdigit_iff y).mp hy)
          simp [frac_part, frac_scan, charAt_zero, bind_ok, peek_cons, advance, hdot, hy, hn]
        · simp [frac_part, frac_scan, charAt_zero, bind_ok, peek_cons, advance, hdot, hy]
    · simp [frac_part, frac_scan, charAt_zero, bind_ok, peek_cons, hx]

theorem exp_part_eq (p : List Char) : exp_part p = .ok (exp_scan p) := by
  rcases p with _ | ⟨x, q⟩
  · have : ¬ (peek [] = 'e' ∨ peek [] = 'E') := by decide
    simp [exp_part, exp_scan, charAt_zero, bind_ok, this]
  · by_cases hx : x = 'e' ∨ x = 'E'
    · have hxn : x ≠ NUL := by rcases hx with h | h <;> subst h <;> decide
      have hstep : exp_part (x :: q) =
          ((charAt (after_exp_sign q) 0).bind fun z =>
            if ¬ isdigit z then .ok (false, after_exp_sign q) else
            (advance (after_exp_sign q) 1).bind fun t => .ok (true, skip_digits t)) := by
        rcases q with _ | ⟨y, t⟩
        · have : ¬ (peek [] = '+' ∨ peek [] = '-') := by decide
          simp [exp_part, after_exp_sign, charAt_zero, bind_ok, peek_cons, advance, hx, hxn,
            this]
        · by_cases hy : y = '+' ∨ y = '-'
          · have hyn : y ≠ NUL := by rcases hy with h | h <;> subst h <;> decide
            simp [exp_part, after_exp_sign, charAt_zero, bind_ok, peek_cons, advance, hx, hxn,
              hy, hyn]
          · simp [exp_part, after_exp_sign, charAt_zero, bind_ok, peek_cons, advance, hx, hxn,
              hy]
      rw [hstep]
      simp only [exp_scan, peek_cons, hx, if_true, List.tail_cons]
      rcases after_exp_sign q with _ | ⟨z, t⟩
      · have : isdigit (peek []) = false := by decide
        simp [charAt_zero, bind_ok, this]
      · by_cases hz : isdigit z = true
        · have hn : z ≠ NUL := digit_ne_NUL ((isdigit_iff z).mp hz)
          simp [charAt_zero, bind_ok, peek_cons, advance, hz, hn]
        · simp [charAt_zero, bind_ok, peek_cons, hz]
    · simp [exp_part, exp_scan, charAt_zero, bind_ok, peek_cons, hx]

/-- The recognizer of a number never faults; its result is decided by the
scan, the boundary check and the overflow test. -/
theorem lept_parse_number_eq {F : Type} (libc : Libc F) (s : List Char) (v : lept_value F) :
    lept_parse_number libc { json := s } v = .ok (
      if (scan s).1 = true ∧ boundary (peek (scan s).2) = true then
        (if tooBig libc s = true then
          (LEPT_PARSE_NUMBER_TOO_BIG, { json := s }, { v with n := libc.strtod s })
         else (LEPT_PARSE_OK, { json := (scan s).2 },
                { n := libc.strtod s, type := LEPT_NUMBER }))
      else (LEPT_PARSE_INVALID_VALUE, { json := (scan s).2 }, v)) := by
  simp only [lept_parse_number, sign_part_eq, int_part_eq, frac_part_eq, exp_part_eq, bind_ok,
    charAt_zero, scan, tooBig, boundary]
  generalize int_scan (sign_scan s) = r1
  by_cases h1 : r1.1 = true
  swap
  · simp [h1]
  simp only [h1, if_true, not_true_eq_false, if_false]
  generalize frac_scan r1.2 = r2
  by_cases h2 : r2.1 = true
  swap
  · simp [h2]
  simp only [h2, if_true, not_true_eq_false, if_false]
  generalize exp_scan r2.2 = r3
  by_cases h3 : r3.1 = true
  swap
  · simp [h3]
  by_cases h7 : peek r3.2 = NUL <;> by_cases h8 : isblank (peek r3.2) = true <;>
    by_cases h9 : libc.feq (libc.strtod s) libc.HUGE_VAL = true <;>
    by_cases h10 : libc.feq (libc.strtod s) (libc.neg libc.HUGE_VAL) = true <;>
    simp [h3, h7, h8, h9, h10]

/-! ## The scan against the grammar -/

theorem cons_of_peek {s : List Char} {x : Char} (h : peek s = x) (hx : x ≠ NUL) :
    s = x :: s.tail := by
  cases s with
  | nil => exact absurd h.symm hx
  | cons y t => rw [peek_cons] at h; rw [h, List.tail_cons]

theorem cons_of_isdigit {s : List Char} (h : isdigit (peek s) = true) :
    s = peek s :: s.tail :=
  cons_of_peek rfl (digit_ne_NUL ((isdigit_iff _).mp h))

theorem digits_eq_nil_of_peek {ds rest : List Char} (hds : Digits ds)
    (h : ¬ Digit (peek (ds ++ rest))) : ds = [] := by
  cases ds with
  | nil => rfl
  | cons d t => exact absurd (digits_head hds) h

theorem int_scan_sound (p : List Char) (h : (int_scan p).1 = true) :
    ∃ i, p = i ++ (int_scan p).2 ∧ IsInt i ∧ ¬ Digit (peek (int_scan p).2) := by
  unfold int_scan at h ⊢
  by_cases h1 : isdigit (peek p) = true
  swap
  · simp [h1] at h
  by_cases h2 : peek p = '0' ∧ isdigit (peek p.tail) = true
  · simp [h1, h2] at h
  simp only [h1, h2, if_true, if_false]
  obtain ⟨ds, e1, e2, e3⟩ := skip_digits_spec p.tail
  refine ⟨peek p :: ds, ?_, ?_, e3⟩
  · rw [List.cons_append, ← e1]
    exact cons_of_isdigit h1
  · by_cases h0 : peek p = '0'
    · left
      have hq : ¬ Digit (peek p.tail) := by
        rw [← isdigit_iff]; exact fun hq => h2 ⟨h0, hq⟩
      rw [e1] at hq
      rw [h0, digits_eq_nil_of_peek e2 hq]
    · right
      exact ⟨peek p, ds, rfl, (isdigit_iff _).mp h1, h0, e2⟩

theorem int_scan_complete (i rest : List Char) (hi : IsInt i) (hrest : ¬ Digit (peek rest)) :
    int_scan (i ++ rest) = (true, rest) := by
  have hr : isdigit (peek rest) = false := (not_isdigit_iff _).mpr hrest
  rcases hi with rfl | ⟨d, ds, rfl, hd, hd0, hds⟩
  · have h0 : isdigit '0' = true := by decide
    have hs : skip_digits rest = rest := skip_digits_append [] rest digits_nil hrest
    simp [int_scan, peek_cons, h0, hr, hs]
  · have h1 : isdigit d = true := (isdigit_iff d).mpr hd
    simp [int_scan, peek_cons, h1, hd0, skip_digits_append ds rest hds hrest]

theorem frac_scan_sound (p : List Char) (h : (frac_scan p).1 = true) :
    ∃ f, p = f ++ (frac_scan p).2 ∧ (f = [] ∨ IsFrac f) := by
  unfold frac_scan at h ⊢
  by_cases h1 : peek p = '.'
  swap
  · exact ⟨[], by simp [h1], Or.inl rfl⟩
  by_cases h2 : isdigit (peek p.tail) = true
  swap
  · simp [h1, h2] at h
  simp only [h1, h2, if_true]
  obtain ⟨ds, e1, e2, -⟩ := skip_digits_spec p.tail.tail
  refine ⟨'.' :: peek p.tail :: ds, ?_, Or.inr ⟨peek p.tail, ds, rfl, (isdigit_iff _).mp h2, e2⟩⟩
  rw [List.cons_append, List.cons_append, ← e1, ← cons_of_isdigit h2]
  exact cons_of_peek h1 (by decide)

theorem frac_scan_complete (f rest : List Char) (hf : f = [] ∨ IsFrac f)
    (hrest : ¬ Digit (peek rest)) (hdot : peek rest ≠ '.') :
    frac_scan (f ++ rest) = (true, rest) := by
  rcases hf with rfl | ⟨d, ds, rfl, hd, hds⟩
  · simp [frac_scan, hdot]
  · have h1 : isdigit d = true := (isdigit_iff d).mpr hd
    simp [frac_scan, peek_cons, h1, skip_digits_append ds rest hds hrest]

theorem after_exp_sign_spec (q : List Char) :
    ∃ sg, q = sg ++ after_exp_sign q ∧ (sg = [] ∨ sg = ['+'] ∨ sg = ['-']) := by
  unfold after_exp_sign
  by_cases h : peek q = '+' ∨ peek q = '-'
  · simp only [h, if_true]
    rcases h with h | h
    · exact ⟨['+'], cons_of_peek h (by decide), Or.inr (Or.inl rfl)⟩
    · exact ⟨['-'], cons_of_peek h (by decide), Or.inr (Or.inr rfl)⟩
  · exact ⟨[], by simp [h], Or.inl rfl⟩

theorem after_exp_sign_append (sg : List Char) (d : Char) (t : List Char)
    (hsg : sg = [] ∨ sg = ['+'] ∨ sg = ['-']) (hd : Digit d) :
    after_exp_sign (sg ++ d :: t) = d :: t := by
  rcases hsg with rfl | rfl | rfl
  · have h1 : d ≠ '+' := by rintro rfl; revert hd; decide
    have h2 : d ≠ '-' := by rintro rfl; revert hd; decide
    simp [after_exp_sign, peek_cons, h1, h2]
  · simp [after_exp_sign, peek_cons]
  · simp [after_exp_sign, peek_cons]

theorem exp_scan_sound (p : List Char) (h : (exp_scan p).1 = true) :
    ∃ e, p = e ++ (exp_scan p).2 ∧ (e = [] ∨ IsExp e) := by
  unfold exp_scan at h ⊢
  by_cases h1 : peek p = 'e' ∨ peek p = 'E'
  swap
  · exact ⟨[], by simp [h1], Or.inl rfl⟩
  by_cases h2 : isdigit (peek (after_exp_sign p.tail)) = true
  swap
  · simp [h1, h2] at h
  simp only [h1, h2, if_true]
  obtain ⟨sg, s1, s2⟩ := after_exp_sign_spec p.tail
  obtain ⟨ds, e1, e2, -⟩ := skip_digits_spec (after_exp_sign p.tail).tail
  have hx : peek p ≠ NUL := by rcases h1 with h | h <;> rw [h] <;> decide
  refine ⟨peek p :: (sg ++ peek (after_exp_sign p.tail) :: ds), ?_,
    Or.inr ⟨peek p, sg, peek (after_exp_sign p.tail), ds, rfl, h1, s2, (isdigit_iff _).mp h2, e2⟩⟩
  rw [List.cons_append, List.append_assoc, List.cons_append, ← e1, ← cons_of_isdigit h2, ← s1]
  exact cons_of_peek rfl hx

theorem exp_scan_complete (e rest : List Char) (he : e = [] ∨ IsExp e)
    (hrest : ¬ Digit (peek rest)) (h1 : peek rest ≠ 'e') (h2 : peek rest ≠ 'E') :
    exp_scan (e ++ rest) = (true, rest) := by
  rcases he with rfl | ⟨x, sg, d, ds, rfl, hx, hsg, hd, hds⟩
  · simp [exp_scan, h1, h2]
  · have hd1 : isdigit d = true := (isdigit_iff d).mpr hd
    have ha : after_exp_sign (sg ++ d :: (ds ++ rest)) = d :: (ds ++ rest) :=
      after_exp_sign_append sg d (ds ++ rest) hsg hd
    simp [exp_scan, peek_cons, hx, ha, hd1, skip_digits_append ds rest hds hrest]

theorem sign_scan_spec (s : List Char) :
    ∃ sg, s = sg ++ sign_scan s ∧ (sg = [] ∨ sg = ['-']) := by
  unfold sign_scan
  by_cases h : peek s = '-'
  · simp only [h, if_true]
    exact ⟨['-'], cons_of_peek h (by decide), Or.inr rfl⟩
  · exact ⟨[], by simp [h], Or.inl rfl⟩

theorem isInt_peek_digit {i : List Char} (hi : IsInt i) (rest : List Char) :
    Digit (peek (i ++ rest)) := by
  rcases hi with rfl | ⟨d, ds, rfl, hd, -, -⟩
  · show Digit '0'
    decide
  · exact hd

theorem sign_scan_append (sg i rest : List Char) (hsg : sg = [] ∨ sg = ['-'])
    (hi : IsInt i) : sign_scan (sg ++ (i ++ rest)) = i ++ rest := by
  rcases hsg with rfl | rfl
  · have hd := isInt_peek_digit hi rest
    have : peek (i ++ rest) ≠ '-' := by
      intro h; rw [h] at hd; revert hd; decide
    simp [sign_scan, this]
  · simp [sign_scan, peek_cons]

/-- The scan is sound: when it reaches line 107, what it stepped over matches
the grammar of a number. -/
theorem scan_sound (s : List Char) (h : (scan s).1 = true) :
    ∃ L, s = L ++ (scan s).2 ∧ IsNumber L := by
  unfold scan at h ⊢
  by_cases h1 : (int_scan (sign_scan s)).1 = true
  swap
  · simp [h1] at h
  by_cases h2 : (frac_scan (int_scan (sign_scan s)).2).1 = true
  swap
  · simp [h1, h2] at h
  simp only [h1, h2, if_true] at h ⊢
  obtain ⟨sg, a1, a2⟩ := sign_scan_spec s
  obtain ⟨i, b1, b2, -⟩ := int_scan_sound _ h1
  obtain ⟨f, c1, c2⟩ := frac_scan_sound _ h2
  obtain ⟨e, d1, d2⟩ := exp_scan_sound _ h
  refine ⟨sg ++ (i ++ (f ++ e)), ?_, sg, i, f, e, rfl, a2, b2, c2, d2⟩
  rw [List.append_assoc, List.append_assoc, List.append_assoc, ← d1, ← c1, ← b1, ← a1]

theorem isExp_peek {e : List Char} (he : IsExp e) (rest : List Char) :
    peek (e ++ rest) = 'e' ∨ peek (e ++ rest) = 'E' := by
  obtain ⟨x, sg, d, ds, rfl, hx, -⟩ := he
  exact hx

theorem isFrac_peek {f : List Char} (hf : IsFrac f) (rest : List Char) :
    peek (f ++ rest) = '.' := by
  obtain ⟨d, ds, rfl, -⟩ := hf
  rfl

theorem stops_exp_append {x : List Char} {rest : List Char} (he : x = [] ∨ IsExp x)
    (hrest : Stops (peek rest)) : ¬ Digit (peek (x ++ rest)) ∧ peek (x ++ rest) ≠ '.' := by
  rcases he with rfl | he
  · exact ⟨hrest.1, hrest.2.1⟩
  · rcases isExp_peek he rest with h | h <;> rw [h] <;> decide

theorem stops_frac_exp_append {f e : List Char} {rest : List Char} (hf : f = [] ∨ IsFrac f)
    (he : e = [] ∨ IsExp e) (hrest : Stops (peek rest)) :
    ¬ Digit (peek (f ++ (e ++ rest))) := by
  rcases hf with rfl | hf
  · exact (stops_exp_append he hrest).1
  · rw [isFrac_peek hf]; decide

/-- The scan is complete: a lexeme of the grammar that is followed by a
character that stops the scan is stepped over exactly. -/
theorem scan_complete (L rest : List Char) (hL : IsNumber L) (hrest : Stops (peek rest)) :
    scan (L ++ rest) = (true, rest) := by
  obtain ⟨sg, i, f, e, rfl, hsg, hi, hf, he⟩ := hL
  have e0 : sg ++ (i ++ (f ++ e)) ++ rest = sg ++ (i ++ (f ++ (e ++ rest))) := by
    simp only [List.append_assoc]
  have e1 : sign_scan (sg ++ (i ++ (f ++ (e ++ rest)))) = i ++ (f ++ (e ++ rest)) :=
    sign_scan_append sg i _ hsg hi
  have e2 : int_scan (i ++ (f ++ (e ++ rest))) = (true, f ++ (e ++ rest)) :=
    int_scan_complete i _ hi (stops_frac_exp_append hf he hrest)
  have e3 : frac_scan (f ++ (e ++ rest)) = (true, e ++ rest) :=
    frac_scan_complete f _ hf (stops_exp_append he hrest).1 (stops_exp_append he hrest).2
  have e4 : exp_scan (e ++ rest) = (true, rest) :=
    exp_scan_complete e rest he hrest.1 hrest.2.2.1 hrest.2.2.2
  rw [e0]
  simp only [scan, e1, e2, e3, e4, if_true]

/-! ## The dispatcher and the driver -/

theorem lept_parse_value_end {F : Type} (libc : Libc F) (s : List Char) (v : lept_value F)
    (h : peek s = NUL) :
    lept_parse_value libc { json := s } v = .ok (LEPT_PARSE_EXPECT_VALUE, { json := s }, v) := by
  have h1 : NUL ≠ 't' := by decide
  have h2 : NUL ≠ 'f' := by decide
  have h3 : NUL ≠ 'n' := by decide
  simp [lept_parse_value, charAt_zero, bind_ok, h, h1, h2, h3]

theorem lept_parse_value_t {F : Type} (libc : Libc F) (rest : List Char) (v : lept_value F) :
    lept_parse_value libc { json := 't' :: rest } v = lept_parse_true { json := 't' :: rest } v := by
  simp [lept_parse_value, charAt_zero, bind_ok, peek_cons]

theorem lept_parse_value_f {F : Type} (libc : Libc F) (rest : List Char) (v : lept_value F) :
    lept_parse_value libc { json := 'f' :: rest } v =
      lept_parse_false { json := 'f' :: rest } v := by
  simp [lept_parse_value, charAt_zero, bind_ok, peek_cons]

theorem lept_parse_value_n {F : Type} (libc : Libc F) (rest : List Char) (v : lept_value F) :
    lept_parse_value libc { json := 'n' :: rest } v = lept_parse_null { json := 'n' :: rest } v := by
  simp [lept_parse_value, charAt_zero, bind_ok, peek_cons]

theorem lept_parse_value_other {F : Type} (libc : Libc F) (s : List Char) (v : lept_value F)
    (h1 : peek s ≠ 't') (h2 : peek s ≠ 'f') (h3 : peek s ≠ 'n') (h4 : peek s ≠ NUL) :
    lept_parse_value libc { json := s } v = lept_parse_number libc { json := s } v := by
  simp [lept_parse_value, charAt_zero, bind_ok, h1, h2, h3, h4]

/-- The driver, given what the dispatcher returns on the text after the
leading whitespace. -/
theorem lept_parse_of_value {F : Type} (libc : Libc F) (v : lept_value F) (text : List Char)
    (st : Status) (c : lept_context) (w : lept_value F)
    (h : lept_parse_value libc { json := skip_whitespace text } { n := v.n, type := LEPT_NULL } =
      .ok (st, c, w)) :
    lept_parse libc v text = .ok (
      if st = LEPT_PARSE_OK then
        (if peek (skip_whitespace c.json) ≠ NUL then
          (LEPT_PARSE_ROOT_NOT_SINGULAR, { n := w.n, type := LEPT_NULL })
         else (LEPT_PARSE_OK, w))
      else (st, w)) := by
  simp only [lept_parse, lept_parse_whitespace, h, bind_ok, charAt_zero]
  by_cases h1 : st = LEPT_PARSE_OK
  · by_cases h2 : peek (skip_whitespace c.json) = NUL <;> simp [h1, h2]
  · simp [h1]

/-- The dispatcher never faults, its status is never RootNotSingular, it
changes the tag only when it returns Ok, and it returns ExpectValue only at the
terminator. -/
theorem lept_parse_value_total {F : Type} (libc : Libc F) (s : List Char) (v : lept_value F) :
    ∃ st c w, lept_parse_value libc { json := s } v = .ok (st, c, w) ∧
      (st ≠ LEPT_PARSE_OK → w.type = v.type) ∧ st ≠ LEPT_PARSE_ROOT_NOT_SINGULAR ∧
      (st = LEPT_PARSE_EXPECT_VALUE → peek s = NUL) := by
  by_cases h4 : peek s = NUL
  · exact ⟨_, _, _, lept_parse_value_end libc s v h4, fun _ => rfl, by decide, fun _ => h4⟩
  by_cases h1 : peek s = 't'
  · rw [cons_of_peek h1 (by decide), lept_parse_value_t]
    by_cases hm : ∃ r, s.tail = 'r' :: 'u' :: 'e' :: r
    · obtain ⟨r, hr⟩ := hm
      rw [hr]
      exact ⟨_, _, _, lept_parse_true_match r v, fun h => absurd rfl h, by decide,
        fun h => by cases h⟩
    · exact ⟨_, _, _, lept_parse_true_mismatch s.tail v (fun r hr => hm ⟨r, hr⟩),
        fun _ => rfl, by decide, fun h => by cases h⟩
  by_cases h2 : peek s = 'f'
  · rw [cons_of_peek h2 (by decide), lept_parse_value_f]
    by_cases hm : ∃ r, s.tail = 'a' :: 'l' :: 's' :: 'e' :: r
    · obtain ⟨r, hr⟩ := hm
      rw [hr]
      exact ⟨_, _, _, lept_parse_false_match r v, fun h => absurd rfl h, by decide,
        fun h => by cases h⟩
    · exact ⟨_, _, _, lept_parse_false_mismatch s.tail v (fun r hr => hm ⟨r, hr⟩),
        fun _ => rfl, by decide, fun h => by cases h⟩
  by_cases h3 : peek s = 'n'
  · rw [cons_of_peek h3 (by decide), lept_parse_value_n]
    by_cases hm : ∃ r, s.tail = 'u' :: 'l' :: 'l' :: r
    · obtain ⟨r, hr⟩ := hm
      rw [hr]
      exact ⟨_, _, _, lept_parse_null_match r v, fun h => absurd rfl h, by decide,
        fun h => by cases h⟩
    · exact ⟨_, _, _, lept_parse_null_mismatch s.tail v (fun r hr => hm ⟨r, hr⟩),
        fun _ => rfl, by decide, fun h => by cases h⟩
  rw [lept_parse_value_other libc s v h1 h2 h3 h4, lept_parse_number_eq]
  by_cases ha : (scan s).1 = true ∧ boundary (peek (scan s).2) = true
  · by_cases hb : tooBig libc s = true
    · rw [if_pos ha, if_pos hb]
      exact ⟨_, _, _, rfl, fun _ => rfl, by decide, fun h => by cases h⟩
    · rw [if_pos ha, if_neg hb]
      exact ⟨_, _, _, rfl, fun h => absurd rfl h, by decide, fun h => by cases h⟩
  · rw [if_neg ha]
    exact ⟨_, _, _, rfl, fun _ => rfl, by decide, fun h => by cases h⟩

theorem skip_whitespace_lead (ws : List Char) (x : Char) (rest : List Char) (hws : WsRun ws)
    (hx : ¬ IsWs x) : skip_whitespace (ws ++ x :: rest) = x :: rest :=
  skip_whitespace_append ws (x :: rest) hws hx

theorem skip_whitespace_all (ws : List Char) (hws : WsRun ws) : skip_whitespace ws = [] := by
  have h := skip_whitespace_append ws [] hws (by decide)
  rwa [List.append_nil] at h

/-- The driver on a text whose first character after the leading whitespace
is `x`, given what the dispatcher returns there. -/
theorem lept_parse_lead {F : Type} (libc : Libc F) (v : lept_value F) (ws : List Char)
    (x : Char) (rest : List Char) (hws : WsRun ws) (hx : ¬ IsWs x)
    (st : Status) (c : lept_context) (w : lept_value F)
    (h : lept_parse_value libc { json := x :: rest } { n := v.n, type := LEPT_NULL } =
      .ok (st, c, w)) :
    lept_parse libc v (ws ++ x :: rest) = .ok (
      if st = LEPT_PARSE_OK then
        (if peek (skip_whitespace c.json) ≠ NUL then
          (LEPT_PARSE_ROOT_NOT_SINGULAR, { n := w.n, type := LEPT_NULL })
         else (LEPT_PARSE_OK, w))
      else (st, w)) := by
  apply lept_parse_of_value
  rw [skip_whitespace_lead ws x rest hws hx]
  exact h

/-! ## The claims -/

/-- C3: for each of the literals `true`, `false` and `null`, with any run of
whitespace before and after it, `lept_parse` returns Ok and leaves the tag
True, False or Null respectively. -/
theorem lept_parse_literal_complete {F : Type} (libc : Libc F) (v : lept_value F)
    (ws ws' : List Char) (hws : WsRun ws) (hws' : WsRun ws') :
    lept_parse libc v (ws ++ 't' :: 'r' :: 'u' :: 'e' :: ws') =
        .ok (LEPT_PARSE_OK, { n := v.n, type := LEPT_TRUE }) ∧
    lept_parse libc v (ws ++ 'f' :: 'a' :: 'l' :: 's' :: 'e' :: ws') =
        .ok (LEPT_PARSE_OK, { n := v.n, type := LEPT_FALSE }) ∧
    lept_parse libc v (ws ++ 'n' :: 'u' :: 'l' :: 'l' :: ws') =
        .ok (LEPT_PARSE_OK, { n := v.n, type := LEPT_NULL }) := by
  have hend : peek (skip_whitespace ws') = NUL := by rw [skip_whitespace_all ws' hws']; rfl
  refine ⟨?_, ?_, ?_⟩
  · rw [lept_parse_lead libc v ws 't' _ hws (by decide) _ _ _
      ((lept_parse_value_t libc _ _).trans (lept_parse_true_match ws' _))]
    simp [hend]
  · rw [lept_parse_lead libc v ws 'f' _ hws (by decide) _ _ _
      ((lept_parse_value_f libc _ _).trans (lept_parse_false_match ws' _))]
    simp [hend]
  · rw [lept_parse_lead libc v ws 'n' _ hws (by decide) _ _ _
      ((lept_parse_value_n libc _ _).trans (lept_parse_null_match ws' _))]
    simp [hend]

theorem lept_parse_literal_complete_witness :
    WsRun [' ', '\n'] ∧ WsRun ['\r', '\t'] ∧
    lept_parse demoLibc { n := 7, type := LEPT_NUMBER }
        ([' ', '\n'] ++ 't' :: 'r' :: 'u' :: 'e' :: ['\r', '\t']) =
      .ok (LEPT_PARSE_OK, { n := 7, type := LEPT_TRUE }) :=
  ⟨by decide, by decide,
    (lept_parse_literal_complete demoLibc { n := 7, type := LEPT_NUMBER } [' ', '\n']
      ['\r', '\t'] (by decide) (by decide)).1⟩

/-- C9: after one of the literals `true`, `false`, `null` (with any whitespace
before it), any run of whitespace `s` and a remainder that starts with a
character `x` that is neither whitespace nor the terminator, `lept_parse`
returns RootNotSingular and leaves the tag Null. -/
theorem lept_parse_literal_trailing {F : Type} (libc : Libc F) (v : lept_value F)
    (ws s : List Char) (x : Char) (r : List Char) (hws : WsRun ws) (hs : WsRun s)
    (hx : ¬ IsWs x) (hnul : x ≠ NUL) :
    lept_parse libc v (ws ++ 't' :: 'r' :: 'u' :: 'e' :: (s ++ x :: r)) =
        .ok (LEPT_PARSE_ROOT_NOT_SINGULAR, { n := v.n, type := LEPT_NULL }) ∧
    lept_parse libc v (ws ++ 'f' :: 'a' :: 'l' :: 's' :: 'e' :: (s ++ x :: r)) =
        .ok (LEPT_PARSE_ROOT_NOT_SINGULAR, { n := v.n, type := LEPT_NULL }) ∧
    lept_parse libc v (ws ++ 'n' :: 'u' :: 'l' :: 'l' :: (s ++ x :: r)) =
        .ok (LEPT_PARSE_ROOT_NOT_SINGULAR, { n := v.n, type := LEPT_NULL }) := by
  have hend : peek (skip_whitespace (s ++ x :: r)) ≠ NUL := by
    rw [skip_whitespace_lead s x r hs hx]; exact hnul
  refine ⟨?_, ?_, ?_⟩
  · rw [lept_parse_lead libc v ws 't' _ hws (by decide) _ _ _
      ((lept_parse_value_t libc _ _).trans (lept_parse_true_match _ _))]
    simp [hend]
  · rw [lept_parse_lead libc v ws 'f' _ hws (by decide) _ _ _
      ((lept_parse_value_f libc _ _).trans (lept_parse_false_match _ _))]
    simp [hend]
  · rw [lept_parse_lead libc v ws 'n' _ hws (by decide) _ _ _
      ((lept_parse_value_n libc _ _).trans (lept_parse_null_match _ _))]
    simp [hend]

theorem lept_parse_literal_trailing_witness :
    WsRun [' '] ∧ WsRun ([] : List Char) ∧ ¬ IsWs 'x' ∧ 'x' ≠ NUL ∧
    lept_parse demoLibc { n := 7, type := LEPT_TRUE }
        ([' '] ++ 't' :: 'r' :: 'u' :: 'e' :: ([] ++ 'x' :: [])) =
      .ok (LEPT_PARSE_ROOT_NOT_SINGULAR, { n := 7, type := LEPT_NULL }) :=
  ⟨by decide, by decide, by decide, by decide,
    (lept_parse_literal_trailing demoLibc { n := 7, type := LEPT_TRUE } [' '] [] 'x' []
      (by decide) (by decide) (by decide) (by decide)).1⟩

/-- C10: when the first character after the leading whitespace is `t` and
the text does not go on with `rue`, or is `f` and the text does not go on with
`alse`, or is `n` and the text does not go on with `ull`, `lept_parse` returns
InvalidValue. -/
theorem lept_parse_literal_malformed {F : Type} (libc : Libc F) (v : lept_value F)
    (ws rest : List Char) (hws : WsRun ws) :
    ((∀ r, rest ≠ 'r' :: 'u' :: 'e' :: r) →
      lept_parse libc v (ws ++ 't' :: rest) =
        .ok (LEPT_PARSE_INVALID_VALUE, { n := v.n, type := LEPT_NULL })) ∧
    ((∀ r, rest ≠ 'a' :: 'l' :: 's' :: 'e' :: r) →
      lept_parse libc v (ws ++ 'f' :: rest) =
        .ok (LEPT_PARSE_INVALID_VALUE, { n := v.n, type := LEPT_NULL })) ∧
    ((∀ r, rest ≠ 'u' :: 'l' :: 'l' :: r) →
      lept_parse libc v (ws ++ 'n' :: rest) =
        .ok (LEPT_PARSE_INVALID_VALUE, { n := v.n, type := LEPT_NULL })) := by
  refine ⟨fun h => ?_, fun h => ?_, fun h => ?_⟩
  · rw [lept_parse_lead libc v ws 't' _ hws (by decide) _ _ _
      ((lept_parse_value_t libc _ _).trans (lept_parse_true_mismatch rest _ h))]
    simp
  · rw [lept_parse_lead libc v ws 'f' _ hws (by decide) _ _ _
      ((lept_parse_value_f libc _ _).trans (lept_parse_false_mismatch rest _ h))]
    simp
  · rw [lept_parse_lead libc v ws 'n' _ hws (by decide) _ _ _
      ((lept_parse_value_n libc _ _).trans (lept_parse_null_mismatch rest _ h))]
    simp

theorem lept_parse_literal_malformed_witness :
    WsRun ['\t'] ∧ (∀ r, ['u', 'l', 'L'] ≠ 'u' :: 'l' :: 'l' :: r) ∧
    lept_parse demoLibc { n := 7, type := LEPT_TRUE } (['\t'] ++ 'n' :: ['u', 'l', 'L']) =
      .ok (LEPT_PARSE_INVALID_VALUE, { n := 7, type := LEPT_NULL }) :=
  ⟨by decide, fun r h => by simp at h,
    (lept_parse_literal_malformed demoLibc { n := 7, type := LEPT_TRUE } ['\t']
      ['u', 'l', 'L'] (by decide)).2.2 (fun r h => by simp at h)⟩

/-- C4: for every text and every prior content of the value slot,
`lept_parse` returns a status and a value, and when the status is not Ok the
tag of the value is Null. -/
theorem lept_parse_failure_tag_null {F : Type} (libc : Libc F) (v : lept_value F)
    (text : List Char) :
    ∃ st w, lept_parse libc v text = .ok (st, w) ∧
      (st ≠ LEPT_PARSE_OK → w.type = LEPT_NULL) := by
  obtain ⟨st, c, w, h, htype, -, -⟩ :=
    lept_parse_value_total libc (skip_whitespace text) { n := v.n, type := LEPT_NULL }
  rw [lept_parse_of_value libc v text st c w h]
  by_cases h1 : st = LEPT_PARSE_OK
  · by_cases h2 : peek (skip_whitespace c.json) ≠ NUL
    · rw [if_pos h1, if_pos h2]
      exact ⟨_, _, rfl, fun _ => rfl⟩
    · rw [if_pos h1, if_neg h2]
      exact ⟨_, _, rfl, fun h => absurd rfl h⟩
  · rw [if_neg h1]
    exact ⟨_, _, rfl, fun _ => htype h1⟩

theorem eq_nil_of_peek_NUL {s : List Char} (h : peek s = NUL) (hnul : NUL ∉ s) : s = [] := by
  cases s with
  | nil => rfl
  | cons x t =>
    rw [peek_cons] at h
    exact absurd (h ▸ List.mem_cons_self x t) hnul

/-- C5: on a text without an inner terminator, `lept_parse` returns
ExpectValue exactly when the text is empty or made of whitespace only; and a
text whose first character after the leading whitespace starts no literal and,
after an optional `-`, is not followed by a digit (a number without its integer
part) gets InvalidValue. -/
theorem lept_parse_expect_value_iff {F : Type} (libc : Libc F) (v : lept_value F)
    (text : List Char) (hnul : NUL ∉ text) :
    ((∃ w, lept_parse libc v text = .ok (LEPT_PARSE_EXPECT_VALUE, w)) ↔ WsRun text) ∧
    (∀ ws x rest, text = ws ++ x :: rest → WsRun ws → ¬ IsWs x →
      x ≠ 't' → x ≠ 'f' → x ≠ 'n' → ¬ Digit (peek (sign_scan (x :: rest))) →
      lept_parse libc v text =
        .ok (LEPT_PARSE_INVALID_VALUE, { n := v.n, type := LEPT_NULL })) := by
  refine ⟨⟨?_, ?_⟩, ?_⟩
  · rintro ⟨w0, hw⟩
    obtain ⟨st, c, w, h, -, hrns, hexp⟩ :=
      lept_parse_value_total libc (skip_whitespace text) { n := v.n, type := LEPT_NULL }
    rw [lept_parse_of_value libc v text st c w h] at hw
    have hst : st = LEPT_PARSE_EXPECT_VALUE := by
      by_cases h1 : st = LEPT_PARSE_OK
      · by_cases h2 : peek (skip_whitespace c.json) ≠ NUL
        · rw [if_pos h1, if_pos h2] at hw
          cases hw
        · rw [if_pos h1, if_neg h2] at hw
          cases hw
      · rw [if_neg h1] at hw
        cases hw
        rfl
    obtain ⟨ws, e1, e2, -⟩ := skip_whitespace_spec text
    have hsub : NUL ∉ skip_whitespace text := by
      intro hmem
      apply hnul
      rw [e1]
      exact List.mem_append_right ws hmem
    rw [eq_nil_of_peek_NUL (hexp hst) hsub, List.append_nil] at e1
    rw [e1]
    exact e2
  · intro hws
    refine ⟨{ n := v.n, type := LEPT_NULL }, ?_⟩
    have hv := lept_parse_value_end libc (skip_whitespace text) { n := v.n, type := LEPT_NULL }
      (by rw [skip_whitespace_all text hws]; rfl)
    rw [lept_parse_of_value libc v text _ _ _ hv]
    simp
  · intro ws x rest htext hws hx ht hf hn hd
    have hxn : x ≠ NUL := by
      rintro rfl
      apply hnul
      rw [htext]
      exact List.mem_append_right ws (List.mem_cons_self _ _)
    have hscan : (scan (x :: rest)).1 = false := by
      have : isdigit (peek (sign_scan (x :: rest))) = false := (not_isdigit_iff _).mpr hd
      simp [scan, int_scan, this]
    have hv : lept_parse_value libc { json := x :: rest } { n := v.n, type := LEPT_NULL } =
        .ok (LEPT_PARSE_INVALID_VALUE, { json := (scan (x :: rest)).2 },
          { n := v.n, type := LEPT_NULL }) := by
      rw [lept_parse_value_other libc (x :: rest) _ ht hf hn hxn, lept_parse_number_eq]
      simp [hscan]
    rw [htext, lept_parse_lead libc v ws x rest hws hx _ _ _ hv]
    simp

theorem lept_parse_expect_value_iff_witness :
    NUL ∉ [' ', '-', '.', '5'] ∧
    ((∃ w, lept_parse demoLibc { n := 7, type := LEPT_TRUE } [' ', '-', '.', '5'] =
        .ok (LEPT_PARSE_EXPECT_VALUE, w)) ↔ WsRun [' ', '-', '.', '5']) ∧
    ¬ Digit (peek (sign_scan ('-' :: ['.', '5']))) ∧
    lept_parse demoLibc { n := 7, type := LEPT_TRUE } [' ', '-', '.', '5'] =
      .ok (LEPT_PARSE_INVALID_VALUE, { n := 7, type := LEPT_NULL }) :=
  ⟨by decide,
    (lept_parse_expect_value_iff demoLibc { n := 7, type := LEPT_TRUE } [' ', '-', '.', '5']
      (by decide)).1,
    by decide,
    (lept_parse_expect_value_iff demoLibc { n := 7, type := LEPT_TRUE } [' ', '-', '.', '5']
      (by decide)).2 [' '] '-' ['.', '5'] rfl (by decide) (by decide) (by decide) (by decide)
      (by decide) (by decide)⟩

theorem boundary_iff (x : Char) :
    boundary x = true ↔ x = NUL ∨ x = ' ' ∨ x = '\t' := by
  simp [boundary, isblank]

theorem stops_of_boundary {x : Char} (h : boundary x = true) : Stops x := by
  rcases (boundary_iff x).mp h with h | h | h <;> subst h <;> decide

theorem isNumber_cons {L : List Char} (hL : IsNumber L) :
    ∃ x t, L = x :: t ∧ (x = '-' ∨ Digit x) := by
  obtain ⟨sg, i, f, e, rfl, hsg, hi, -, -⟩ := hL
  rcases hsg with rfl | rfl
  · rcases hi with rfl | ⟨d, ds, rfl, hd, -, -⟩
    · exact ⟨'0', _, rfl, Or.inr (by decide)⟩
    · exact ⟨d, _, rfl, Or.inr hd⟩
  · exact ⟨'-', _, rfl, Or.inl rfl⟩

theorem number_lead {x : Char} (h : x = '-' ∨ Digit x) :
    ¬ IsWs x ∧ x ≠ 't' ∧ x ≠ 'f' ∧ x ≠ 'n' ∧ x ≠ NUL := by
  rcases h with rfl | h
  · decide
  · refine ⟨?_, ?_, ?_, ?_, ?_⟩
    · exact fun hw => isWs_not_digit hw h
    all_goals (rintro rfl; revert h; decide)

/-- The driver on a lexeme of the grammar, after leading whitespace and before
a rest whose first character stops the scan. -/
theorem lept_parse_number_text {F : Type} (libc : Libc F) (v : lept_value F)
    (ws L rest : List Char) (hws : WsRun ws) (hL : IsNumber L) (hrest : Stops (peek rest)) :
    lept_parse libc v (ws ++ (L ++ rest)) = .ok (
      if boundary (peek rest) = true then
        (if tooBig libc (L ++ rest) = true then
          (LEPT_PARSE_NUMBER_TOO_BIG, { n := libc.strtod (L ++ rest), type := LEPT_NULL })
         else if peek (skip_whitespace rest) ≠ NUL then
          (LEPT_PARSE_ROOT_NOT_SINGULAR, { n := libc.strtod (L ++ rest), type := LEPT_NULL })
         else (LEPT_PARSE_OK, { n := libc.strtod (L ++ rest), type := LEPT_NUMBER }))
      else (LEPT_PARSE_INVALID_VALUE, { n := v.n, type := LEPT_NULL })) := by
  obtain ⟨x, t, rfl, hx⟩ := isNumber_cons hL
  obtain ⟨h0, h1, h2, h3, h4⟩ := number_lead hx
  have hv := lept_parse_value_other libc (x :: t ++ rest) { n := v.n, type := LEPT_NULL }
    h1 h2 h3 h4
  rw [lept_parse_number_eq, scan_complete (x :: t) rest hL hrest] at hv
  rw [List.cons_append] at hv ⊢
  by_cases hb : boundary (peek rest) = true
  · by_cases hbig : tooBig libc (x :: (t ++ rest)) = true
    · simp only [hb, hbig, and_self, if_true] at hv
      rw [lept_parse_lead libc v ws x _ hws h0 _ _ _ hv]
      simp [hb, hbig]
    · simp only [hb, hbig, and_self, if_true, if_false] at hv
      rw [lept_parse_lead libc v ws x _ hws h0 _ _ _ hv]
      simp [hb, hbig]
  · simp only [hb, and_false, if_false] at hv
    rw [lept_parse_lead libc v ws x _ hws h0 _ _ _ hv]
    simp [hb]

/-- C6: `lept_parse_number` returns a status, which is Ok, NumberTooBig or
InvalidValue, and it is not InvalidValue exactly when the text at the cursor
starts with a lexeme of the grammar `'-'? int frac? exp?` that is followed by
the terminator, a space or a tab. -/
theorem lept_parse_number_decides_grammar {F : Type} (libc : Libc F) (v : lept_value F)
    (s : List Char) :
    ∃ st c w, lept_parse_number libc { json := s } v = .ok (st, c, w) ∧
      (st = LEPT_PARSE_OK ∨ st = LEPT_PARSE_NUMBER_TOO_BIG ∨ st = LEPT_PARSE_INVALID_VALUE) ∧
      (st ≠ LEPT_PARSE_INVALID_VALUE ↔
        ∃ L rest, s = L ++ rest ∧ IsNumber L ∧
          (peek rest = NUL ∨ peek rest = ' ' ∨ peek rest = '\t')) := by
  rw [lept_parse_number_eq]
  by_cases ha : (scan s).1 = true ∧ boundary (peek (scan s).2) = true
  · obtain ⟨L, hs, hL⟩ := scan_sound s ha.1
    have hex : ∃ L rest, s = L ++ rest ∧ IsNumber L ∧
        (peek rest = NUL ∨ peek rest = ' ' ∨ peek rest = '\t') :=
      ⟨L, (scan s).2, hs, hL, (boundary_iff _).mp ha.2⟩
    by_cases hb : tooBig libc s = true
    · rw [if_pos ha, if_pos hb]
      exact ⟨_, _, _, rfl, Or.inr (Or.inl rfl), fun _ => hex, fun _ => by decide⟩
    · rw [if_pos ha, if_neg hb]
      exact ⟨_, _, _, rfl, Or.inl rfl, fun _ => hex, fun _ => by decide⟩
  · rw [if_neg ha]
    refine ⟨_, _, _, rfl, Or.inr (Or.inr rfl), fun h => absurd rfl h, ?_⟩
    rintro ⟨L, rest, rfl, hL, hrest⟩
    have hb : boundary (peek rest) = true := (boundary_iff _).mpr hrest
    exact absurd (by rw [scan_complete L rest hL (stops_of_boundary hb)]; exact ⟨rfl, hb⟩) ha

/-- C7: when a lexeme `L` of the number grammar is followed by a character
`c` that is not the terminator, a space, a tab, a digit, `.`, `e` or `E`,
`lept_parse` returns InvalidValue whatever comes after `c`. -/
theorem lept_parse_number_boundary {F : Type} (libc : Libc F) (v : lept_value F)
    (L : List Char) (c : Char) (r : List Char) (hL : IsNumber L)
    (hnul : c ≠ NUL) (hsp : c ≠ ' ') (htab : c ≠ '\t')
    (hd : ¬ Digit c) (hdot : c ≠ '.') (he : c ≠ 'e') (hE : c ≠ 'E') :
    lept_parse libc v (L ++ c :: r) =
      .ok (LEPT_PARSE_INVALID_VALUE, { n := v.n, type := LEPT_NULL }) := by
  have hstop : Stops (peek (c :: r)) := ⟨hd, hdot, he, hE⟩
  have hb : ¬ boundary (peek (c :: r)) = true := by
    rw [boundary_iff, peek_cons]
    exact fun h => h.elim hnul (fun h => h.elim hsp htab)
  have h := lept_parse_number_text libc v [] L (c :: r) (by decide) hL hstop
  rw [if_neg hb, List.nil_append] at h
  exact h

theorem lept_parse_number_boundary_witness :
    IsNumber ['1'] ∧ '\n' ≠ NUL ∧ '\n' ≠ ' ' ∧ '\n' ≠ '\t' ∧ ¬ Digit '\n' ∧ '\n' ≠ '.' ∧
    '\n' ≠ 'e' ∧ '\n' ≠ 'E' ∧
    lept_parse demoLibc { n := 7, type := LEPT_TRUE } (['1'] ++ '\n' :: []) =
      .ok (LEPT_PARSE_INVALID_VALUE, { n := 7, type := LEPT_NULL }) :=
  have hL : IsNumber ['1'] :=
    ⟨[], ['1'], [], [], rfl, Or.inl rfl,
      Or.inr ⟨'1', [], rfl, by decide, by decide, by decide⟩, Or.inl rfl, Or.inl rfl⟩
  ⟨hL, by decide, by decide, by decide, by decide, by decide, by decide, by decide,
    lept_parse_number_boundary demoLibc { n := 7, type := LEPT_TRUE } ['1'] '\n' [] hL
      (by decide) (by decide) (by decide) (by decide) (by decide) (by decide) (by decide)⟩

/-- C8: after a lexeme `L` of the number grammar whose conversion is finite
(with any whitespace before it), a run of whitespace that starts with a space
or a tab and a remainder that starts with a character `x` that is neither
whitespace nor the terminator, `lept_parse` returns RootNotSingular and leaves
the tag Null. -/
theorem lept_parse_number_trailing {F : Type} (libc : Libc F) (v : lept_value F)
    (ws L : List Char) (b : Char) (s : List Char) (x : Char) (r : List Char)
    (hws : WsRun ws) (hL : IsNumber L) (hb : b = ' ' ∨ b = '\t') (hs : WsRun s)
    (hx : ¬ IsWs x) (hnul : x ≠ NUL)
    (hfin : tooBig libc (L ++ b :: (s ++ x :: r)) = false) :
    lept_parse libc v (ws ++ (L ++ b :: (s ++ x :: r))) =
      .ok (LEPT_PARSE_ROOT_NOT_SINGULAR,
        { n := libc.strtod (L ++ b :: (s ++ x :: r)), type := LEPT_NULL }) := by
  have hbd : boundary (peek (b :: (s ++ x :: r))) = true := by
    rw [boundary_iff, peek_cons]; exact Or.inr hb
  have hbs : WsRun (b :: s) := by
    intro ch hch
    rcases List.mem_cons.mp hch with h | h
    · rw [h]
      rcases hb with hb | hb
      · exact Or.inl hb
      · exact Or.inr (Or.inl hb)
    · exact hs ch h
  have hskip : peek (skip_whitespace (b :: (s ++ x :: r))) ≠ NUL := by
    rw [← List.cons_append, skip_whitespace_lead (b :: s) x r hbs hx]
    exact hnul
  rw [lept_parse_number_text libc v ws L _ hws hL (stops_of_boundary hbd)]
  simp [hbd, hfin, hskip]

theorem lept_parse_number_trailing_witness :
    WsRun ['\n'] ∧ IsNumber ['1'] ∧ (' ' = ' ' ∨ ' ' = '\t') ∧ WsRun ([] : List Char) ∧
    ¬ IsWs '2' ∧ '2' ≠ NUL ∧ tooBig demoLibc (['1'] ++ ' ' :: ([] ++ '2' :: [])) = false ∧
    lept_parse demoLibc { n := 7, type := LEPT_TRUE }
        (['\n'] ++ (['1'] ++ ' ' :: ([] ++ '2' :: []))) =
      .ok (LEPT_PARSE_ROOT_NOT_SINGULAR,
        { n := demoLibc.strtod (['1'] ++ ' ' :: ([] ++ '2' :: [])), type := LEPT_NULL }) :=
  have hL : IsNumber ['1'] :=
    ⟨[], ['1'], [], [], rfl, Or.inl rfl,
      Or.inr ⟨'1', [], rfl, by decide, by decide, by decide⟩, Or.inl rfl, Or.inl rfl⟩
  ⟨by decide, hL, Or.inl rfl, by decide, by decide, by decide, by decide,
    lept_parse_number_trailing demoLibc { n := 7, type := LEPT_TRUE } ['\n'] ['1'] ' ' []
      '2' [] (by decide) hL (Or.inl rfl) (by decide) (by decide) (by decide) (by decide)⟩

/-- C2, as the code has it: a lexeme `L` of the number grammar whose
conversion is finite, with any run of whitespace before it and, after it, a
run of whitespace that is empty or starts with a space or a tab, makes
`lept_parse` return Ok with the tag Number. -/
theorem lept_parse_number_complete {F : Type} (libc : Libc F) (v : lept_value F)
    (ws L ws' : List Char) (hws : WsRun ws) (hL : IsNumber L) (hws' : WsRun ws')
    (hfirst : ws' = [] ∨ peek ws' = ' ' ∨ peek ws' = '\t')
    (hfin : tooBig libc (L ++ ws') = false) :
    lept_parse libc v (ws ++ (L ++ ws')) =
      .ok (LEPT_PARSE_OK, { n := libc.strtod (L ++ ws'), type := LEPT_NUMBER }) := by
  have hbd : boundary (peek ws') = true := by
    rw [boundary_iff]
    rcases hfirst with rfl | h
    · exact Or.inl rfl
    · exact Or.inr h
  have hskip : peek (skip_whitespace ws') = NUL := by
    rw [skip_whitespace_all ws' hws']; rfl
  rw [lept_parse_number_text libc v ws L _ hws hL (stops_of_boundary hbd)]
  simp [hbd, hfin, hskip]

theorem lept_parse_number_complete_witness :
    WsRun ['\n'] ∧ IsNumber ['1'] ∧ WsRun [' ', '\n'] ∧
    ([' ', '\n'] = [] ∨ peek [' ', '\n'] = ' ' ∨ peek [' ', '\n'] = '\t') ∧
    tooBig demoLibc (['1'] ++ [' ', '\n']) = false ∧
    lept_parse demoLibc { n := 7, type := LEPT_TRUE } (['\n'] ++ (['1'] ++ [' ', '\n'])) =
      .ok (LEPT_PARSE_OK,
        { n := demoLibc.strtod (['1'] ++ [' ', '\n']), type := LEPT_NUMBER }) :=
  have hL : IsNumber ['1'] :=
    ⟨[], ['1'], [], [], rfl, Or.inl rfl,
      Or.inr ⟨'1', [], rfl, by decide, by decide, by decide⟩, Or.inl rfl, Or.inl rfl⟩
  ⟨by decide, hL, by decide, Or.inr (Or.inl rfl), by decide,
    lept_parse_number_complete demoLibc { n := 7, type := LEPT_TRUE } ['\n'] ['1']
      [' ', '\n'] (by decide) hL (by decide) (Or.inr (Or.inl rfl)) (by decide)⟩

/-- C2, as stated, fails: `1` matches the number grammar, its conversion is
finite and a newline is a run of whitespace, yet on the text `1` followed by a
newline `lept_parse` returns InvalidValue. -/
theorem lept_parse_number_newline_rejected :
    IsNumber ['1'] ∧ WsRun ([] : List Char) ∧ WsRun ['\n'] ∧
    tooBig demoLibc (['1'] ++ ['\n']) = false ∧
    lept_parse demoLibc { n := 7, type := LEPT_TRUE } ([] ++ (['1'] ++ ['\n'])) =
      .ok (LEPT_PARSE_INVALID_VALUE, { n := 7, type := LEPT_NULL }) :=
  ⟨⟨[], ['1'], [], [], rfl, Or.inl rfl,
      Or.inr ⟨'1', [], rfl, by decide, by decide, by decide⟩, Or.inl rfl, Or.inl rfl⟩,
    by decide, by decide, by decide, by rfl⟩

/-- The characters that the number grammar is written with. -/
theorem isNumber_chars {L : List Char} (hL : IsNumber L) :
    peek L ≠ '+' ∧ ∀ ch ∈ L, Digit ch ∨ ch ∈ ['-', '+', '.', 'e', 'E'] := by
  constructor
  · obtain ⟨x, t, rfl, hx⟩ := isNumber_cons hL
    rw [peek_cons]
    rcases hx with rfl | hx
    · decide
    · rintro rfl; revert hx; decide
  · obtain ⟨sg, i, f, e, rfl, hsg, hi, hf, he⟩ := hL
    intro ch hch
    rcases List.mem_append.mp hch with h | h
    · rcases hsg with rfl | rfl
      · simp at h
      · right; rw [List.mem_singleton.mp h]; decide
    rcases List.mem_append.mp h with h | h
    · rcases hi with rfl | ⟨d, ds, rfl, hd, -, hds⟩
      · left; rw [List.mem_singleton.mp h]; decide
      · rcases List.mem_cons.mp h with h | h
        · left; rw [h]; exact hd
        · left; exact hds ch h
    rcases List.mem_append.mp h with h | h
    · rcases hf with rfl | ⟨d, ds, rfl, hd, hds⟩
      · simp at h
      · rcases List.mem_cons.mp h with h | h
        · right; rw [h]; decide
        rcases List.mem_cons.mp h with h | h
        · left; rw [h]; exact hd
        · left; exact hds ch h
    · rcases he with rfl | ⟨x, sg', d, ds, rfl, hx, hsg', hd, hds⟩
      · simp at h
      · rcases List.mem_cons.mp h with h | h
        · right; rw [h]; rcases hx with rfl | rfl <;> decide
        rcases List.mem_append.mp h with h | h
        · rcases hsg' with rfl | rfl | rfl
          · simp at h
          · right; rw [List.mem_singleton.mp h]; decide
          · right; rw [List.mem_singleton.mp h]; decide
        rcases List.mem_cons.mp h with h | h
        · left; rw [h]; exact hd
        · left; exact hds ch h

/-- What the dispatcher has stepped over when it returns Ok. -/
theorem lept_parse_value_ok_sound {F : Type} (libc : Libc F) (s : List Char)
    (v : lept_value F) (c : lept_context) (w : lept_value F)
    (h : lept_parse_value libc { json := s } v = .ok (LEPT_PARSE_OK, c, w)) :
    ∃ lex, s = lex ++ c.json ∧
      ((lex = ['t', 'r', 'u', 'e'] ∧ w.type = LEPT_TRUE) ∨
       (lex = ['f', 'a', 'l', 's', 'e'] ∧ w.type = LEPT_FALSE) ∨
       (lex = ['n', 'u', 'l', 'l'] ∧ w.type = LEPT_NULL) ∨
       (IsNumber lex ∧ w.type = LEPT_NUMBER)) := by
  by_cases h4 : peek s = NUL
  · rw [lept_parse_value_end libc s v h4] at h
    cases h
  by_cases h1 : peek s = 't'
  · have hs := cons_of_peek h1 (by decide)
    rw [hs, lept_parse_value_t] at h
    by_cases hm : ∃ r, s.tail = 'r' :: 'u' :: 'e' :: r
    · obtain ⟨r, hr⟩ := hm
      rw [hr, lept_parse_true_match] at h
      cases h
      exact ⟨_, by rw [hs, hr]; rfl, Or.inl ⟨rfl, rfl⟩⟩
    · rw [lept_parse_true_mismatch s.tail v (fun r hr => hm ⟨r, hr⟩)] at h
      cases h
  by_cases h2 : peek s = 'f'
  · have hs := cons_of_peek h2 (by decide)
    rw [hs, lept_parse_value_f] at h
    by_cases hm : ∃ r, s.tail = 'a' :: 'l' :: 's' :: 'e' :: r
    · obtain ⟨r, hr⟩ := hm
      rw [hr, lept_parse_false_match] at h
      cases h
      exact ⟨_, by rw [hs, hr]; rfl, Or.inr (Or.inl ⟨rfl, rfl⟩)⟩
    · rw [lept_parse_false_mismatch s.tail v (fun r hr => hm ⟨r, hr⟩)] at h
      cases h
  by_cases h3 : peek s = 'n'
  · have hs := cons_of_peek h3 (by decide)
    rw [hs, lept_parse_value_n] at h
    by_cases hm : ∃ r, s.tail = 'u' :: 'l' :: 'l' :: r
    · obtain ⟨r, hr⟩ := hm
      rw [hr, lept_parse_null_match] at h
      cases h
      exact ⟨_, by rw [hs, hr]; rfl, Or.inr (Or.inr (Or.inl ⟨rfl, rfl⟩))⟩
    · rw [lept_parse_null_mismatch s.tail v (fun r hr => hm ⟨r, hr⟩)] at h
      cases h
  rw [lept_parse_value_other libc s v h1 h2 h3 h4, lept_parse_number_eq] at h
  by_cases ha : (scan s).1 = true ∧ boundary (peek (scan s).2) = true
  · by_cases hb : tooBig libc s = true
    · rw [if_pos ha, if_pos hb] at h
      cases h
    · rw [if_pos ha, if_neg hb] at h
      cases h
      obtain ⟨L, hs, hL⟩ := scan_sound s ha.1
      exact ⟨L, hs, Or.inr (Or.inr (Or.inr ⟨hL, rfl⟩))⟩
  · rw [if_neg ha] at h
    cases h

/-- C1: on a text without an inner terminator, when `lept_parse` returns Ok
the text is a run of whitespace, a lexeme and a run of whitespace, where the
lexeme is `true` (tag True), `false` (tag False), `null` (tag Null), or matches
the grammar `'-'? int frac? exp?` (tag Number); such a lexeme does not start
with `+` and is written with digits, `-`, `+`, `.`, `e` and `E` only, which
leaves out hexadecimal floats, NaN and Infinity. -/
theorem lept_parse_ok_sound {F : Type} (libc : Libc F) (v : lept_value F)
    (text : List Char) (w : lept_value F) (hnul : NUL ∉ text)
    (h : lept_parse libc v text = .ok (LEPT_PARSE_OK, w)) :
    ∃ ws lex ws', text = ws ++ (lex ++ ws') ∧ WsRun ws ∧ WsRun ws' ∧
      ((lex = ['t', 'r', 'u', 'e'] ∧ w.type = LEPT_TRUE) ∨
       (lex = ['f', 'a', 'l', 's', 'e'] ∧ w.type = LEPT_FALSE) ∨
       (lex = ['n', 'u', 'l', 'l'] ∧ w.type = LEPT_NULL) ∨
       (IsNumber lex ∧ w.type = LEPT_NUMBER ∧ peek lex ≠ '+' ∧
         ∀ ch ∈ lex, Digit ch ∨ ch ∈ ['-', '+', '.', 'e', 'E'])) := by
  obtain ⟨st, c, w1, hv, -, -, -⟩ :=
    lept_parse_value_total libc (skip_whitespace text) { n := v.n, type := LEPT_NULL }
  rw [lept_parse_of_value libc v text st c w1 hv] at h
  by_cases h1 : st = LEPT_PARSE_OK
  swap
  · rw [if_neg h1] at h
    cases h
    exact absurd rfl h1
  subst h1
  by_cases h2 : peek (skip_whitespace c.json) ≠ NUL
  · rw [if_pos rfl, if_pos h2] at h
    cases h
  rw [if_pos rfl, if_neg h2] at h
  cases h
  obtain ⟨lex, hlex, hkind⟩ := lept_parse_value_ok_sound libc _ _ c w hv
  obtain ⟨ws, e1, e2, -⟩ := skip_whitespace_spec text
  obtain ⟨ws', f1, f2, -⟩ := skip_whitespace_spec c.json
  have htext : text = ws ++ (lex ++ (ws' ++ skip_whitespace c.json)) := by
    rw [← f1, ← hlex, ← e1]
  have hsub : NUL ∉ skip_whitespace c.json := by
    intro hmem
    apply hnul
    rw [htext]
    exact List.mem_append_right _ (List.mem_append_right _ (List.mem_append_right _ hmem))
  rw [eq_nil_of_peek_NUL (not_not.mp h2) hsub, List.append_nil] at htext
  refine ⟨ws, lex, ws', htext, e2, f2, ?_⟩
  rcases hkind with hk | hk | hk | ⟨hL, ht⟩
  · exact Or.inl hk
  · exact Or.inr (Or.inl hk)
  · exact Or.inr (Or.inr (Or.inl hk))
  · exact Or.inr (Or.inr (Or.inr ⟨hL, ht, (isNumber_chars hL).1, (isNumber_chars hL).2⟩))

theorem lept_parse_ok_sound_witness :
    NUL ∉ [' ', '-', '0', '.', '5', 'e', '+', '1', '0', '\t'] ∧
    lept_parse demoLibc { n := 7, type := LEPT_TRUE }
        [' ', '-', '0', '.', '5', 'e', '+', '1', '0', '\t'] =
      .ok (LEPT_PARSE_OK, { n := 10, type := LEPT_NUMBER }) ∧
    ∃ ws lex ws', [' ', '-', '0', '.', '5', 'e', '+', '1', '0', '\t'] = ws ++ (lex ++ ws') ∧
      WsRun ws ∧ WsRun ws' ∧
      ((lex = ['t', 'r', 'u', 'e'] ∧
          ({ n := 10, type := LEPT_NUMBER } : lept_value Nat).type = LEPT_TRUE) ∨
       (lex = ['f', 'a', 'l', 's', 'e'] ∧
          ({ n := 10, type := LEPT_NUMBER } : lept_value Nat).type = LEPT_FALSE) ∨
       (lex = ['n', 'u', 'l', 'l'] ∧
          ({ n := 10, type := LEPT_NUMBER } : lept_value Nat).type = LEPT_NULL) ∨
       (IsNumber lex ∧ ({ n := 10, type := LEPT_NUMBER } : lept_value Nat).type = LEPT_NUMBER ∧
         peek lex ≠ '+' ∧ ∀ ch ∈ lex, Digit ch ∨ ch ∈ ['-', '+', '.', 'e', 'E'])) :=
  ⟨by decide, by rfl,
    lept_parse_ok_sound demoLibc { n := 7, type := LEPT_TRUE }
      [' ', '-', '0', '.', '5', 'e', '+', '1', '0', '\t'] { n := 10, type := LEPT_NUMBER }
      (by decide) (by rfl)⟩

/-! ## Malformed numbers -/

/-- The driver on a text that the dispatcher hands to `lept_parse_number`:
its result is decided by the scan, the boundary check, the overflow test and
the whitespace after the lexeme. -/
theorem lept_parse_via_number {F : Type} (libc : Libc F) (v : lept_value F)
    (ws : List Char) (x : Char) (t : List Char) (hws : WsRun ws) (h0 : ¬ IsWs x)
    (h1 : x ≠ 't') (h2 : x ≠ 'f') (h3 : x ≠ 'n') (h4 : x ≠ NUL) :
    lept_parse libc v (ws ++ x :: t) = .ok (
      if (scan (x :: t)).1 = true ∧ boundary (peek (scan (x :: t)).2) = true then
        (if tooBig libc (x :: t) = true then
          (LEPT_PARSE_NUMBER_TOO_BIG, { n := libc.strtod (x :: t), type := LEPT_NULL })
         else if peek (skip_whitespace (scan (x :: t)).2) ≠ NUL then
          (LEPT_PARSE_ROOT_NOT_SINGULAR, { n := libc.strtod (x :: t), type := LEPT_NULL })
         else (LEPT_PARSE_OK, { n := libc.strtod (x :: t), type := LEPT_NUMBER }))
      else (LEPT_PARSE_INVALID_VALUE, { n := v.n, type := LEPT_NULL })) := by
  have hv := lept_parse_value_other libc (x :: t) { n := v.n, type := LEPT_NULL } h1 h2 h3 h4
  rw [lept_parse_number_eq] at hv
  by_cases ha : (scan (x :: t)).1 = true ∧ boundary (peek (scan (x :: t)).2) = true
  · by_cases hbig : tooBig libc (x :: t) = true
    · rw [if_pos ha, if_pos hbig] at hv
      rw [lept_parse_lead libc v ws x _ hws h0 _ _ _ hv, if_pos ha, if_pos hbig]
      simp
    · rw [if_pos ha, if_neg hbig] at hv
      rw [lept_parse_lead libc v ws x _ hws h0 _ _ _ hv, if_pos ha, if_neg hbig]
      simp
  · rw [if_neg ha] at hv
    rw [lept_parse_lead libc v ws x _ hws h0 _ _ _ hv, if_neg ha]
    simp

/-- The driver returns InvalidValue when the scan of the number fails. -/
theorem lept_parse_scan_fails {F : Type} (libc : Libc F) (v : lept_value F)
    (ws : List Char) (x : Char) (t : List Char) (hws : WsRun ws) (h0 : ¬ IsWs x)
    (h1 : x ≠ 't') (h2 : x ≠ 'f') (h3 : x ≠ 'n') (h4 : x ≠ NUL)
    (hscan : (scan (x :: t)).1 = false) :
    lept_parse libc v (ws ++ x :: t) =
      .ok (LEPT_PARSE_INVALID_VALUE, { n := v.n, type := LEPT_NULL }) := by
  rw [lept_parse_via_number libc v ws x t hws h0 h1 h2 h3 h4]
  simp [hscan]

/-- C11: when the first character after the leading whitespace exists and is
none of `t`, `f`, `n`, `-` or a decimal digit, `lept_parse` returns
InvalidValue whatever follows. -/
theorem lept_parse_dispatch_fallback {F : Type} (libc : Libc F) (v : lept_value F)
    (ws : List Char) (x : Char) (rest : List Char) (hws : WsRun ws) (hx : ¬ IsWs x)
    (hnul : x ≠ NUL) (ht : x ≠ 't') (hf : x ≠ 'f') (hn : x ≠ 'n') (hm : x ≠ '-')
    (hd : ¬ Digit x) :
    lept_parse libc v (ws ++ x :: rest) =
      .ok (LEPT_PARSE_INVALID_VALUE, { n := v.n, type := LEPT_NULL }) := by
  apply lept_parse_scan_fails libc v ws x rest hws hx ht hf hn hnul
  have h : isdigit x = false := (not_isdigit_iff x).mpr hd
  simp [scan, sign_scan, int_scan, peek_cons, hm, h]

theorem lept_parse_dispatch_fallback_witness :
    WsRun [' '] ∧ ¬ IsWs '+' ∧ '+' ≠ NUL ∧ '+' ≠ 't' ∧ '+' ≠ 'f' ∧ '+' ≠ 'n' ∧ '+' ≠ '-' ∧
    ¬ Digit '+' ∧
    lept_parse demoLibc { n := 7, type := LEPT_TRUE } ([' '] ++ '+' :: ['1']) =
      .ok (LEPT_PARSE_INVALID_VALUE, { n := 7, type := LEPT_NULL }) :=
  ⟨by decide, by decide, by decide, by decide, by decide, by decide, by decide, by decide,
    lept_parse_dispatch_fallback demoLibc { n := 7, type := LEPT_TRUE } [' '] '+' ['1']
      (by decide) (by decide) (by decide) (by decide) (by decide) (by decide) (by decide)
      (by decide)⟩

/-- C12: when, after the leading whitespace and an optional `-`, the text has
a `0` immediately followed by a decimal digit, `lept_parse` returns
InvalidValue whatever follows. -/
theorem lept_parse_leading_zero {F : Type} (libc : Libc F) (v : lept_value F)
    (ws : List Char) (d : Char) (rest : List Char) (hws : WsRun ws) (hd : Digit d) :
    lept_parse libc v (ws ++ '0' :: d :: rest) =
        .ok (LEPT_PARSE_INVALID_VALUE, { n := v.n, type := LEPT_NULL }) ∧
    lept_parse libc v (ws ++ '-' :: '0' :: d :: rest) =
        .ok (LEPT_PARSE_INVALID_VALUE, { n := v.n, type := LEPT_NULL }) := by
  have h : isdigit d = true := (isdigit_iff d).mpr hd
  have h0 : isdigit '0' = true := by decide
  constructor
  · apply lept_parse_scan_fails libc v ws '0' _ hws (by decide) (by decide) (by decide)
      (by decide) (by decide)
    simp [scan, sign_scan, int_scan, peek_cons, h, h0]
  · apply lept_parse_scan_fails libc v ws '-' _ hws (by decide) (by decide) (by decide)
      (by decide) (by decide)
    simp [scan, sign_scan, int_scan, peek_cons, h, h0]

theorem lept_parse_leading_zero_witness :
    WsRun ['\t'] ∧ Digit '1' ∧
    lept_parse demoLibc { n := 7, type := LEPT_TRUE } (['\t'] ++ '0' :: '1' :: ['2']) =
        .ok (LEPT_PARSE_INVALID_VALUE, { n := 7, type := LEPT_NULL }) ∧
    lept_parse demoLibc { n := 7, type := LEPT_TRUE } (['\t'] ++ '-' :: '0' :: '1' :: ['2']) =
        .ok (LEPT_PARSE_INVALID_VALUE, { n := 7, type := LEPT_NULL }) :=
  ⟨by decide, by decide,
    lept_parse_leading_zero demoLibc { n := 7, type := LEPT_TRUE } ['\t'] '1' ['2']
      (by decide) (by decide)⟩

theorem signed_int_cons (sg i r : List Char) (hsg : sg = [] ∨ sg = ['-']) (hi : IsInt i) :
    ∃ x t, sg ++ (i ++ r) = x :: t ∧ (x = '-' ∨ Digit x) := by
  rcases hsg with rfl | rfl
  · rcases hi with rfl | ⟨d, ds, rfl, hd, -, -⟩
    · exact ⟨'0', _, rfl, Or.inr (by decide)⟩
    · exact ⟨d, _, rfl, Or.inr hd⟩
  · exact ⟨'-', _, rfl, Or.inl rfl⟩

/-- The driver returns InvalidValue on a text that starts, after the leading
whitespace, with an optional `-` and an integer part, when the scan fails
later on. -/
theorem lept_parse_signed_scan_fails {F : Type} (libc : Libc F) (v : lept_value F)
    (ws sg i r : List Char) (hws : WsRun ws) (hsg : sg = [] ∨ sg = ['-']) (hi : IsInt i)
    (hscan : (scan (sg ++ (i ++ r))).1 = false) :
    lept_parse libc v (ws ++ (sg ++ (i ++ r))) =
      .ok (LEPT_PARSE_INVALID_VALUE, { n := v.n, type := LEPT_NULL }) := by
  obtain ⟨x, t, hxt, hx⟩ := signed_int_cons sg i r hsg hi
  obtain ⟨h0, h1, h2, h3, h4⟩ := number_lead hx
  rw [hxt] at hscan ⊢
  exact lept_parse_scan_fails libc v ws x t hws h0 h1 h2 h3 h4 hscan

theorem scan_missing_frac_digit (sg i rest : List Char) (hsg : sg = [] ∨ sg = ['-'])
    (hi : IsInt i) (hd : ¬ Digit (peek rest)) :
    (scan (sg ++ (i ++ '.' :: rest))).1 = false := by
  have e1 : sign_scan (sg ++ (i ++ '.' :: rest)) = i ++ '.' :: rest :=
    sign_scan_append sg i _ hsg hi
  have e2 : int_scan (i ++ '.' :: rest) = (true, '.' :: rest) :=
    int_scan_complete i _ hi (by rw [peek_cons]; decide)
  have h : isdigit (peek rest) = false := (not_isdigit_iff _).mpr hd
  have e3 : frac_scan ('.' :: rest) = (false, rest) := by
    simp [frac_scan, peek_cons, h]
  simp [scan, e1, e2, e3]

theorem scan_missing_exp_digit (sg i f : List Char) (e : Char) (sgn rest : List Char)
    (hsg : sg = [] ∨ sg = ['-']) (hi : IsInt i) (hf : f = [] ∨ IsFrac f)
    (he : e = 'e' ∨ e = 'E')
    (hsgn : (sgn = [] ∧ peek rest ≠ '+' ∧ peek rest ≠ '-') ∨ sgn = ['+'] ∨ sgn = ['-'])
    (hd : ¬ Digit (peek rest)) :
    (scan (sg ++ (i ++ (f ++ e :: (sgn ++ rest))))).1 = false := by
  have hed : ¬ Digit e := by rcases he with rfl | rfl <;> decide
  have hedot : e ≠ '.' := by rcases he with rfl | rfl <;> decide
  have e1 : sign_scan (sg ++ (i ++ (f ++ e :: (sgn ++ rest)))) =
      i ++ (f ++ e :: (sgn ++ rest)) := sign_scan_append sg i _ hsg hi
  have hpf : ¬ Digit (peek (f ++ e :: (sgn ++ rest))) := by
    rcases hf with rfl | hf
    · exact hed
    · rw [isFrac_peek hf]; decide
  have e2 : int_scan (i ++ (f ++ e :: (sgn ++ rest))) = (true, f ++ e :: (sgn ++ rest)) :=
    int_scan_complete i _ hi hpf
  have e3 : frac_scan (f ++ e :: (sgn ++ rest)) = (true, e :: (sgn ++ rest)) :=
    frac_scan_complete f _ hf hed hedot
  have h : isdigit (peek rest) = false := (not_isdigit_iff _).mpr hd
  have e4 : after_exp_sign (sgn ++ rest) = rest := by
    rcases hsgn with ⟨rfl, hp, hm⟩ | rfl | rfl
    · simp [after_exp_sign, hp, hm]
    · simp [after_exp_sign, peek_cons]
    · simp [after_exp_sign, peek_cons]
  have e5 : exp_scan (e :: (sgn ++ rest)) = (false, rest) := by
    simp [exp_scan, peek_cons, he, e4, h]
  simp [scan, e1, e2, e3, e5]

/-- C13: `lept_parse` returns InvalidValue when, after the leading
whitespace, the number lacks a digit group: a `-` that is not followed by a
digit; a `.` at the place of the integer part, whatever follows it; an integer
part and a `.` that is not followed by a digit; an integer part, an optional
fraction, an `e` or `E` and an optional sign that are not followed by a
digit. -/
theorem lept_parse_missing_digits {F : Type} (libc : Libc F) (v : lept_value F)
    (ws rest : List Char) (hws : WsRun ws) :
    (¬ Digit (peek rest) →
      lept_parse libc v (ws ++ '-' :: rest) =
        .ok (LEPT_PARSE_INVALID_VALUE, { n := v.n, type := LEPT_NULL })) ∧
    lept_parse libc v (ws ++ '.' :: rest) =
        .ok (LEPT_PARSE_INVALID_VALUE, { n := v.n, type := LEPT_NULL }) ∧
    (∀ sg i, (sg = [] ∨ sg = ['-']) → IsInt i → ¬ Digit (peek rest) →
      lept_parse libc v (ws ++ (sg ++ (i ++ '.' :: rest))) =
        .ok (LEPT_PARSE_INVALID_VALUE, { n := v.n, type := LEPT_NULL })) ∧
    (∀ sg i f e sgn, (sg = [] ∨ sg = ['-']) → IsInt i → (f = [] ∨ IsFrac f) →
      (e = 'e' ∨ e = 'E') →
      ((sgn = [] ∧ peek rest ≠ '+' ∧ peek rest ≠ '-') ∨ sgn = ['+'] ∨ sgn = ['-']) →
      ¬ Digit (peek rest) →
      lept_parse libc v (ws ++ (sg ++ (i ++ (f ++ e :: (sgn ++ rest))))) =
        .ok (LEPT_PARSE_INVALID_VALUE, { n := v.n, type := LEPT_NULL })) := by
  refine ⟨fun hd => ?_, ?_, ?_, ?_⟩
  · have h : isdigit (peek rest) = false := (not_isdigit_iff _).mpr hd
    apply lept_parse_scan_fails libc v ws '-' rest hws (by decide) (by decide) (by decide)
      (by decide) (by decide)
    simp [scan, sign_scan, int_scan, peek_cons, h]
  · apply lept_parse_scan_fails libc v ws '.' rest hws (by decide) (by decide) (by decide)
      (by decide) (by decide)
    have hdot : isdigit '.' = false := by decide
    simp [scan, sign_scan, int_scan, peek_cons, hdot]
  · intro sg i hsg hi hd
    exact lept_parse_signed_scan_fails libc v ws sg i _ hws hsg hi
      (scan_missing_frac_digit sg i rest hsg hi hd)
  · intro sg i f e sgn hsg hi hf he hsgn hd
    exact lept_parse_signed_scan_fails libc v ws sg i _ hws hsg hi
      (scan_missing_exp_digit sg i f e sgn rest hsg hi hf he hsgn hd)

theorem lept_parse_missing_digits_witness :
    WsRun ([] : List Char) ∧ ¬ Digit (peek ([] : List Char)) ∧ IsInt ['1'] ∧
    lept_parse demoLibc { n := 7, type := LEPT_TRUE } ([] ++ '-' :: []) =
        .ok (LEPT_PARSE_INVALID_VALUE, { n := 7, type := LEPT_NULL }) ∧
    lept_parse demoLibc { n := 7, type := LEPT_TRUE } ([] ++ '.' :: ['5']) =
        .ok (LEPT_PARSE_INVALID_VALUE, { n := 7, type := LEPT_NULL }) ∧
    lept_parse demoLibc { n := 7, type := LEPT_TRUE } ([] ++ ([] ++ (['1'] ++ '.' :: []))) =
        .ok (LEPT_PARSE_INVALID_VALUE, { n := 7, type := LEPT_NULL }) ∧
    lept_parse demoLibc { n := 7, type := LEPT_TRUE }
        ([] ++ ([] ++ (['1'] ++ ([] ++ 'e' :: ([] ++ []))))) =
        .ok (LEPT_PARSE_INVALID_VALUE, { n := 7, type := LEPT_NULL }) ∧
    lept_parse demoLibc { n := 7, type := LEPT_TRUE }
        ([] ++ ([] ++ (['1'] ++ ([] ++ 'e' :: (['+'] ++ []))))) =
        .ok (LEPT_PARSE_INVALID_VALUE, { n := 7, type := LEPT_NULL }) :=
  have hi : IsInt ['1'] := Or.inr ⟨'1', [], rfl, by decide, by decide, by decide⟩
  have h := lept_parse_missing_digits demoLibc { n := 7, type := LEPT_TRUE } [] []
    (by decide)
  have h5 := lept_parse_missing_digits demoLibc { n := 7, type := LEPT_TRUE } [] ['5']
    (by decide)
  ⟨by decide, by decide, hi, h.1 (by decide), h5.2.1,
    h.2.2.1 [] ['1'] (Or.inl rfl) hi (by decide),
    h.2.2.2 [] ['1'] [] 'e' [] (Or.inl rfl) hi (Or.inl rfl) (Or.inl rfl)
      (Or.inl ⟨rfl, by decide, by decide⟩) (by decide),
    h.2.2.2 [] ['1'] [] 'e' ['+'] (Or.inl rfl) hi (Or.inl rfl) (Or.inl rfl)
      (Or.inr (Or.inl rfl)) (by decide)⟩

/-! ## The whitespace skipper, faults and positions -/

theorem skip_whitespace_id (s : List Char) (h : ¬ IsWs (peek s)) : skip_whitespace s = s :=
  skip_whitespace_append [] s (by decide) h

/-- C17: `lept_parse_whitespace` moves the cursor forward over a run of
whitespace to the first character, possibly the terminator, that is not a
space, a tab, a newline or a carriage return; applying it twice is applying it
once; and it leaves the cursor where it is when the character there is not
whitespace (the terminator included). -/
theorem lept_parse_whitespace_spec (c : lept_context) :
    (∃ ws, c.json = ws ++ (lept_parse_whitespace c).json ∧ WsRun ws ∧
      ¬ IsWs (peek (lept_parse_whitespace c).json)) ∧
    lept_parse_whitespace (lept_parse_whitespace c) = lept_parse_whitespace c ∧
    (¬ IsWs (peek c.json) → lept_parse_whitespace c = c) ∧
    (peek c.json = NUL → lept_parse_whitespace c = c) := by
  obtain ⟨ws, h1, h2, h3⟩ := skip_whitespace_spec c.json
  refine ⟨⟨ws, h1, h2, h3⟩, ?_, ?_, ?_⟩
  · simp only [lept_parse_whitespace, skip_whitespace_id _ h3]
  · intro h
    simp only [lept_parse_whitespace, skip_whitespace_id _ h]
  · intro h
    have hn : ¬ IsWs (peek c.json) := by rw [h]; decide
    simp only [lept_parse_whitespace, skip_whitespace_id _ hn]

/-- A read faults exactly when its index is beyond the first terminator. -/
theorem charAt_fault_iff (s : List Char) (k : Nat) :
    charAt s k = .error .outOfBounds ↔ strlen s < k := by
  induction s generalizing k with
  | nil =>
    cases k with
    | zero => simp [charAt, strlen]
    | succ k => simp [charAt, strlen]
  | cons ch t ih =>
    cases k with
    | zero => simp [charAt]
    | succ k =>
      by_cases h : ch = NUL
      · simp [charAt, strlen, h]
      · simp [charAt, strlen, h, ih k]

/-- The macro `EXPECT` in closed form. -/
theorem EXPECT_eq (s : List Char) (ch : Char) (hch : ch ≠ NUL) :
    EXPECT { json := s } ch =
      if peek s = ch then .ok { json := s.tail } else .error .assertion := by
  rcases s with _ | ⟨x, t⟩
  · have h : peek [] ≠ ch := fun h => hch h.symm
    simp [EXPECT, charAt_zero, bind_ok, h]
  · by_cases hx : x = ch
    · subst hx
      simp [EXPECT, charAt_zero, bind_ok, peek_cons, advance, hch]
    · simp [EXPECT, charAt_zero, bind_ok, peek_cons, hx]

theorem lept_parse_true_assert {F : Type} (s : List Char) (v : lept_value F)
    (h : peek s ≠ 't') : lept_parse_true { json := s } v = .error .assertion := by
  simp [lept_parse_true, EXPECT_eq s 't' (by decide), h, Except.bind]

theorem lept_parse_false_assert {F : Type} (s : List Char) (v : lept_value F)
    (h : peek s ≠ 'f') : lept_parse_false { json := s } v = .error .assertion := by
  simp [lept_parse_false, EXPECT_eq s 'f' (by decide), h, Except.bind]

theorem lept_parse_null_assert {F : Type} (s : List Char) (v : lept_value F)
    (h : peek s ≠ 'n') : lept_parse_null { json := s } v = .error .assertion := by
  simp [lept_parse_null, EXPECT_eq s 'n' (by decide), h, Except.bind]

theorem lept_parse_true_total {F : Type} (rest : List Char) (v : lept_value F) :
    ∃ r, lept_parse_true { json := 't' :: rest } v = .ok r := by
  by_cases hm : ∃ r, rest = 'r' :: 'u' :: 'e' :: r
  · obtain ⟨r, rfl⟩ := hm
    exact ⟨_, lept_parse_true_match r v⟩
  · exact ⟨_, lept_parse_true_mismatch rest v (fun r hr => hm ⟨r, hr⟩)⟩

theorem lept_parse_false_total {F : Type} (rest : List Char) (v : lept_value F) :
    ∃ r, lept_parse_false { json := 'f' :: rest } v = .ok r := by
  by_cases hm : ∃ r, rest = 'a' :: 'l' :: 's' :: 'e' :: r
  · obtain ⟨r, rfl⟩ := hm
    exact ⟨_, lept_parse_false_match r v⟩
  · exact ⟨_, lept_parse_false_mismatch rest v (fun r hr => hm ⟨r, hr⟩)⟩

theorem lept_parse_null_total {F : Type} (rest : List Char) (v : lept_value F) :
    ∃ r, lept_parse_null { json := 'n' :: rest } v = .ok r := by
  by_cases hm : ∃ r, rest = 'u' :: 'l' :: 'l' :: r
  · obtain ⟨r, rfl⟩ := hm
    exact ⟨_, lept_parse_null_match r v⟩
  · exact ⟨_, lept_parse_null_mismatch rest v (fun r hr => hm ⟨r, hr⟩)⟩

/-- The driver never faults. -/
theorem lept_parse_total {F : Type} (libc : Libc F) (v : lept_value F) (text : List Char) :
    ∃ r, lept_parse libc v text = .ok r := by
  obtain ⟨st, c, w, h, -, -, -⟩ :=
    lept_parse_value_total libc (skip_whitespace text) { n := v.n, type := LEPT_NULL }
  exact ⟨_, lept_parse_of_value libc v text st c w h⟩

/-- C19: no read of `lept_parse`, of the dispatcher or of a recognizer goes
beyond the first terminator of the text: a read at index `k` from the cursor
faults exactly when `k` is greater than the length of the C string there, and
`lept_parse`, `lept_parse_value`, `lept_parse_number`, `lept_parse_true`,
`lept_parse_false` and `lept_parse_null` never end in that fault, at any
cursor. -/
theorem lept_parse_reads_in_bounds {F : Type} (libc : Libc F) (v : lept_value F)
    (s : List Char) :
    (∀ k, charAt s k = .error .outOfBounds ↔ strlen s < k) ∧
    lept_parse libc v s ≠ .error .outOfBounds ∧
    lept_parse_value libc { json := s } v ≠ .error .outOfBounds ∧
    lept_parse_number libc { json := s } v ≠ .error .outOfBounds ∧
    lept_parse_true { json := s } v ≠ .error .outOfBounds ∧
    lept_parse_false { json := s } v ≠ .error .outOfBounds ∧
    lept_parse_null { json := s } v ≠ .error .outOfBounds := by
  refine ⟨charAt_fault_iff s, ?_, ?_, ?_, ?_, ?_, ?_⟩
  · obtain ⟨r, h⟩ := lept_parse_total libc v s
    rw [h]; exact fun h => by cases h
  · obtain ⟨st, c, w, h, -⟩ := lept_parse_value_total libc s v
    rw [h]; exact fun h => by cases h
  · rw [lept_parse_number_eq]; exact fun h => by cases h
  · by_cases h : peek s = 't'
    · rw [cons_of_peek h (by decide)]
      obtain ⟨r, hr⟩ := lept_parse_true_total s.tail v
      rw [hr]; exact fun h => by cases h
    · rw [lept_parse_true_assert s v h]; exact fun h => by cases h
  · by_cases h : peek s = 'f'
    · rw [cons_of_peek h (by decide)]
      obtain ⟨r, hr⟩ := lept_parse_false_total s.tail v
      rw [hr]; exact fun h => by cases h
    · rw [lept_parse_false_assert s v h]; exact fun h => by cases h
  · by_cases h : peek s = 'n'
    · rw [cons_of_peek h (by decide)]
      obtain ⟨r, hr⟩ := lept_parse_null_total s.tail v
      rw [hr]; exact fun h => by cases h
    · rw [lept_parse_null_assert s v h]; exact fun h => by cases h

/-- C20: the assertion of `EXPECT` fails exactly when the character at the
cursor is not the expected one, and it never fails in a run of `lept_parse`
or of the dispatcher `lept_parse_value`: the dispatcher hands a text to
`lept_parse_true`, `lept_parse_false` or `lept_parse_null` only when it starts
with `t`, `f` or `n`, and there the recognizer returns. -/
theorem lept_parse_expect_holds {F : Type} (libc : Libc F) (v : lept_value F)
    (s : List Char) :
    lept_parse libc v s ≠ .error .assertion ∧
    lept_parse_value libc { json := s } v ≠ .error .assertion ∧
    (∀ ch, ch ≠ NUL → (EXPECT { json := s } ch = .error .assertion ↔ peek s ≠ ch)) ∧
    (peek s = 't' → lept_parse_value libc { json := s } v = lept_parse_true { json := s } v ∧
      ∃ r, lept_parse_true { json := s } v = .ok r) ∧
    (peek s = 'f' → lept_parse_value libc { json := s } v = lept_parse_false { json := s } v ∧
      ∃ r, lept_parse_false { json := s } v = .ok r) ∧
    (peek s = 'n' → lept_parse_value libc { json := s } v = lept_parse_null { json := s } v ∧
      ∃ r, lept_parse_null { json := s } v = .ok r) ∧
    (peek s ≠ 't' → peek s ≠ 'f' → peek s ≠ 'n' →
      ∃ r, lept_parse_value libc { json := s } v = .ok r ∧
        (r = (LEPT_PARSE_EXPECT_VALUE, { json := s }, v) ∨
          lept_parse_number libc { json := s } v = .ok r)) := by
  refine ⟨?_, ?_, ?_, ?_, ?_, ?_, ?_⟩
  · obtain ⟨r, h⟩ := lept_parse_total libc v s
    rw [h]; exact fun h => by cases h
  · obtain ⟨st, c, w, h, -⟩ := lept_parse_value_total libc s v
    rw [h]; exact fun h => by cases h
  · intro ch hch
    rw [EXPECT_eq s ch hch]
    by_cases h : peek s = ch <;> simp [h]
  · intro h
    have hs := cons_of_peek h (by decide)
    rw [hs]
    exact ⟨lept_parse_value_t libc _ v, lept_parse_true_total _ v⟩
  · intro h
    have hs := cons_of_peek h (by decide)
    rw [hs]
    exact ⟨lept_parse_value_f libc _ v, lept_parse_false_total _ v⟩
  · intro h
    have hs := cons_of_peek h (by decide)
    rw [hs]
    exact ⟨lept_parse_value_n libc _ v, lept_parse_null_total _ v⟩
  · intro h1 h2 h3
    by_cases h4 : peek s = NUL
    · exact ⟨_, lept_parse_value_end libc s v h4, Or.inl rfl⟩
    · rw [lept_parse_value_other libc s v h1 h2 h3 h4, lept_parse_number_eq]
      exact ⟨_, rfl, Or.inr rfl⟩

/-- What the dispatcher does to the value slot does not depend on the slot:
the status, the cursor, the payload it stores (if any) and the tag it sets (if
any) are functions of the text; a tag Number comes with the conversion as the
stored payload, and the conversion passed the overflow test. -/
theorem lept_parse_value_uniform {F : Type} (libc : Libc F) (s : List Char) :
    ∃ (st : Status) (c : lept_context) (pay : Option F) (ty : Option lept_type),
      (ty = some LEPT_NUMBER → pay = some (libc.strtod s) ∧ tooBig libc s = false) ∧
      ∀ v : lept_value F, lept_parse_value libc { json := s } v =
        .ok (st, c, { n := pay.getD v.n, type := ty.getD v.type }) := by
  by_cases h4 : peek s = NUL
  · exact ⟨_, _, none, none, (fun h => by cases h), fun v => lept_parse_value_end libc s v h4⟩
  by_cases h1 : peek s = 't'
  · rw [cons_of_peek h1 (by decide)]
    by_cases hm : ∃ r, s.tail = 'r' :: 'u' :: 'e' :: r
    · obtain ⟨r, hr⟩ := hm
      rw [hr]
      exact ⟨_, _, none, some LEPT_TRUE, (fun h => by cases h), fun v =>
        (lept_parse_value_t libc _ v).trans (lept_parse_true_match r v)⟩
    · exact ⟨_, _, none, none, (fun h => by cases h), fun v =>
        (lept_parse_value_t libc _ v).trans
          (lept_parse_true_mismatch s.tail v (fun r hr => hm ⟨r, hr⟩))⟩
  by_cases h2 : peek s = 'f'
  · rw [cons_of_peek h2 (by decide)]
    by_cases hm : ∃ r, s.tail = 'a' :: 'l' :: 's' :: 'e' :: r
    · obtain ⟨r, hr⟩ := hm
      rw [hr]
      exact ⟨_, _, none, some LEPT_FALSE, (fun h => by cases h), fun v =>
        (lept_parse_value_f libc _ v).trans (lept_parse_false_match r v)⟩
    · exact ⟨_, _, none, none, (fun h => by cases h), fun v =>
        (lept_parse_value_f libc _ v).trans
          (lept_parse_false_mismatch s.tail v (fun r hr => hm ⟨r, hr⟩))⟩
  by_cases h3 : peek s = 'n'
  · rw [cons_of_peek h3 (by decide)]
    by_cases hm : ∃ r, s.tail = 'u' :: 'l' :: 'l' :: r
    · obtain ⟨r, hr⟩ := hm
      rw [hr]
      exact ⟨_, _, none, some LEPT_NULL, (fun h => by cases h), fun v =>
        (lept_parse_value_n libc _ v).trans (lept_parse_null_match r v)⟩
    · exact ⟨_, _, none, none, (fun h => by cases h), fun v =>
        (lept_parse_value_n libc _ v).trans
          (lept_parse_null_mismatch s.tail v (fun r hr => hm ⟨r, hr⟩))⟩
  by_cases ha : (scan s).1 = true ∧ boundary (peek (scan s).2) = true
  · by_cases hb : tooBig libc s = true
    · refine ⟨LEPT_PARSE_NUMBER_TOO_BIG, { json := s }, some (libc.strtod s), none,
        (fun h => by cases h), fun v => ?_⟩
      rw [lept_parse_value_other libc s v h1 h2 h3 h4, lept_parse_number_eq, if_pos ha,
        if_pos hb]
      rfl
    · refine ⟨LEPT_PARSE_OK, { json := (scan s).2 }, some (libc.strtod s), some LEPT_NUMBER,
        fun _ => ⟨rfl, by simpa using hb⟩, fun v => ?_⟩
      rw [lept_parse_value_other libc s v h1 h2 h3 h4, lept_parse_number_eq, if_pos ha,
        if_neg hb]
      rfl
  · refine ⟨LEPT_PARSE_INVALID_VALUE, { json := (scan s).2 }, none, none,
      (fun h => by cases h), fun v => ?_⟩
    rw [lept_parse_value_other libc s v h1 h2 h3 h4, lept_parse_number_eq, if_neg ha]
    rfl

/-- C16: for every text and any two prior contents of the value slot, the
two runs of `lept_parse` return the same status and leave the same tag, and
the same payload when that tag is Number; so `lept_get_type` and
`lept_get_number` give the same on both. -/
theorem lept_parse_independent {F : Type} (libc : Libc F) (v1 v2 : lept_value F)
    (text : List Char) :
    ∃ st w1 w2, lept_parse libc v1 text = .ok (st, w1) ∧
      lept_parse libc v2 text = .ok (st, w2) ∧ w1.type = w2.type ∧
      (w1.type = LEPT_NUMBER → w1.n = w2.n) ∧
      lept_get_type w1 = lept_get_type w2 ∧ lept_get_number w1 = lept_get_number w2 := by
  obtain ⟨st, c, pay, ty, hpay, hv⟩ := lept_parse_value_uniform libc (skip_whitespace text)
  have e1 := lept_parse_of_value libc v1 text st c _ (hv { n := v1.n, type := LEPT_NULL })
  have e2 := lept_parse_of_value libc v2 text st c _ (hv { n := v2.n, type := LEPT_NULL })
  have key : ∀ (st' : Status) (w1 w2 : lept_value F),
      lept_parse libc v1 text = .ok (st', w1) → lept_parse libc v2 text = .ok (st', w2) →
      w1.type = w2.type → (w1.type = LEPT_NUMBER → w1.n = w2.n) →
      ∃ st w1 w2, lept_parse libc v1 text = .ok (st, w1) ∧
        lept_parse libc v2 text = .ok (st, w2) ∧ w1.type = w2.type ∧
        (w1.type = LEPT_NUMBER → w1.n = w2.n) ∧
        lept_get_type w1 = lept_get_type w2 ∧ lept_get_number w1 = lept_get_number w2 := by
    intro st' w1 w2 h1 h2 ht hn
    refine ⟨st', w1, w2, h1, h2, ht, hn, ht, ?_⟩
    unfold lept_get_number
    by_cases hty : w1.type = LEPT_NUMBER
    · rw [if_pos hty, if_pos (ht ▸ hty), hn hty]
    · rw [if_neg hty, if_neg (ht ▸ hty)]
  have hnum : ty.getD LEPT_NULL = LEPT_NUMBER → pay.getD v1.n = pay.getD v2.n := by
    intro h
    have hty : ty = some LEPT_NUMBER := by
      cases ty with
      | none => cases h
      | some t => exact congrArg some h
    rw [(hpay hty).1]
    rfl
  by_cases hst : st = LEPT_PARSE_OK
  · by_cases hp : peek (skip_whitespace c.json) ≠ NUL
    · rw [if_pos hst, if_pos hp] at e1 e2
      exact key _ _ _ e1 e2 rfl (fun h => by cases h)
    · rw [if_pos hst, if_neg hp] at e1 e2
      exact key _ _ _ e1 e2 rfl hnum
  · rw [if_neg hst] at e1 e2
    exact key _ _ _ e1 e2 rfl hnum

/-! ## Overflow -/

theorem tooBig_iff {F : Type} (libc : Libc F) (s : List Char) :
    tooBig libc s = true ↔
      (libc.feq (libc.strtod s) libc.HUGE_VAL = true ∨
        libc.feq (libc.strtod s) (libc.neg libc.HUGE_VAL) = true) := by
  simp [tooBig]

/-- C15: on a text made of a lexeme of the number grammar followed by the
terminator, a space or a tab (leading whitespace allowed), `lept_parse`
returns NumberTooBig exactly when the conversion of the text at the lexeme
compares equal to `HUGE_VAL` or to `-HUGE_VAL`, and then the tag is Null; and
on every text, a value left with the tag Number holds a payload that compares
equal to neither. -/
theorem lept_parse_overflow {F : Type} (libc : Libc F) (v : lept_value F)
    (ws L rest : List Char) (hws : WsRun ws) (hL : IsNumber L)
    (hrest : peek rest = NUL ∨ peek rest = ' ' ∨ peek rest = '\t') :
    (∃ st w, lept_parse libc v (ws ++ (L ++ rest)) = .ok (st, w) ∧
      (st = LEPT_PARSE_NUMBER_TOO_BIG ↔
        (libc.feq (libc.strtod (L ++ rest)) libc.HUGE_VAL = true ∨
          libc.feq (libc.strtod (L ++ rest)) (libc.neg libc.HUGE_VAL) = true)) ∧
      (st = LEPT_PARSE_NUMBER_TOO_BIG → w.type = LEPT_NULL)) ∧
    (∀ text st w, lept_parse libc v text = .ok (st, w) → w.type = LEPT_NUMBER →
      libc.feq w.n libc.HUGE_VAL = false ∧
        libc.feq w.n (libc.neg libc.HUGE_VAL) = false) := by
  constructor
  · have hb : boundary (peek rest) = true := (boundary_iff _).mpr hrest
    rw [lept_parse_number_text libc v ws L rest hws hL (stops_of_boundary hb), if_pos hb,
      ← tooBig_iff]
    by_cases hbig : tooBig libc (L ++ rest) = true
    · rw [if_pos hbig]
      exact ⟨_, _, rfl, ⟨fun _ => hbig, fun _ => rfl⟩, fun _ => rfl⟩
    · by_cases hp : peek (skip_whitespace rest) ≠ NUL
      · rw [if_neg hbig, if_pos hp]
        exact ⟨_, _, rfl, ⟨(fun h => by cases h), fun h => absurd h hbig⟩, fun h => by cases h⟩
      · rw [if_neg hbig, if_neg hp]
        exact ⟨_, _, rfl, ⟨(fun h => by cases h), fun h => absurd h hbig⟩, fun h => by cases h⟩
  · intro text st w h hty
    obtain ⟨st', c, pay, ty, hpay, hv⟩ := lept_parse_value_uniform libc (skip_whitespace text)
    rw [lept_parse_of_value libc v text st' c _ (hv { n := v.n, type := LEPT_NULL })] at h
    have hw : w = { n := pay.getD v.n, type := ty.getD LEPT_NULL } := by
      by_cases hst : st' = LEPT_PARSE_OK
      · by_cases hp : peek (skip_whitespace c.json) ≠ NUL
        · rw [if_pos hst, if_pos hp] at h
          cases h
          cases hty
        · rw [if_pos hst, if_neg hp] at h
          cases h
          rfl
      · rw [if_neg hst] at h
        cases h
        rfl
    subst hw
    have ht : ty = some LEPT_NUMBER := by
      cases ty with
      | none => cases hty
      | some t => exact congrArg some hty
    obtain ⟨hp, hbig⟩ := hpay ht
    rw [hp]
    simpa [tooBig] using hbig

theorem lept_parse_overflow_witness :
    WsRun [' '] ∧ IsNumber ['1', 'e', '4', '0', '0'] ∧
    (peek ['\t'] = NUL ∨ peek ['\t'] = ' ' ∨ peek ['\t'] = '\t') ∧
    lept_parse demoLibc { n := 7, type := LEPT_TRUE }
        ([' '] ++ (['1', 'e', '4', '0', '0'] ++ ['\t'])) =
      .ok (LEPT_PARSE_NUMBER_TOO_BIG, { n := 309, type := LEPT_NULL }) ∧
    (∃ st w, lept_parse demoLibc { n := 7, type := LEPT_TRUE }
        ([' '] ++ (['1', 'e', '4', '0', '0'] ++ ['\t'])) = .ok (st, w) ∧
      (st = LEPT_PARSE_NUMBER_TOO_BIG ↔
        (demoLibc.feq (demoLibc.strtod (['1', 'e', '4', '0', '0'] ++ ['\t']))
            demoLibc.HUGE_VAL = true ∨
          demoLibc.feq (demoLibc.strtod (['1', 'e', '4', '0', '0'] ++ ['\t']))
            (demoLibc.neg demoLibc.HUGE_VAL) = true)) ∧
      (st = LEPT_PARSE_NUMBER_TOO_BIG → w.type = LEPT_NULL)) :=
  have hL : IsNumber ['1', 'e', '4', '0', '0'] :=
    ⟨[], ['1'], [], ['e', '4', '0', '0'], rfl, Or.inl rfl,
      Or.inr ⟨'1', [], rfl, by decide, by decide, by decide⟩, Or.inl rfl,
      Or.inr ⟨'e', [], '4', ['0', '0'], rfl, Or.inl rfl, Or.inl rfl, by decide, by decide⟩⟩
  ⟨by decide, hL, Or.inr (Or.inr rfl), by rfl,
    (lept_parse_overflow demoLibc { n := 7, type := LEPT_TRUE } [' ']
      ['1', 'e', '4', '0', '0'] ['\t'] (by decide) hL (Or.inr (Or.inr rfl))).1⟩

/-! ## The cursor after a recognizer -/

theorem skip_digits_suffix (s : List Char) : skip_digits s <:+ s := by
  obtain ⟨ds, h, -, -⟩ := skip_digits_spec s
  exact ⟨ds, h.symm⟩

theorem sign_scan_suffix (s : List Char) : sign_scan s <:+ s := by
  unfold sign_scan
  by_cases h : peek s = '-'
  · rw [if_pos h]; exact List.tail_suffix s
  · rw [if_neg h]

theorem after_exp_sign_suffix (s : List Char) : after_exp_sign s <:+ s := by
  unfold after_exp_sign
  by_cases h : peek s = '+' ∨ peek s = '-'
  · rw [if_pos h]; exact List.tail_suffix s
  · rw [if_neg h]

theorem int_scan_suffix (p : List Char) : (int_scan p).2 <:+ p := by
  unfold int_scan
  by_cases h1 : isdigit (peek p) = true
  · by_cases h2 : peek p = '0' ∧ isdigit (peek p.tail) = true
    · rw [if_pos h1, if_pos h2]
    · rw [if_pos h1, if_neg h2]
      exact (skip_digits_suffix _).trans (List.tail_suffix p)
  · rw [if_neg h1]

theorem frac_scan_suffix (p : List Char) : (frac_scan p).2 <:+ p := by
  unfold frac_scan
  by_cases h1 : peek p = '.'
  · by_cases h2 : isdigit (peek p.tail) = true
    · rw [if_pos h1, if_pos h2]
      exact (skip_digits_suffix _).trans ((List.tail_suffix _).trans (List.tail_suffix p))
    · rw [if_pos h1, if_neg h2]
      exact List.tail_suffix p
  · rw [if_neg h1]

theorem exp_scan_suffix (p : List Char) : (exp_scan p).2 <:+ p := by
  unfold exp_scan
  by_cases h1 : peek p = 'e' ∨ peek p = 'E'
  · by_cases h2 : isdigit (peek (after_exp_sign p.tail)) = true
    · rw [if_pos h1, if_pos h2]
      exact (skip_digits_suffix _).trans ((List.tail_suffix _).trans
        ((after_exp_sign_suffix _).trans (List.tail_suffix p)))
    · rw [if_pos h1, if_neg h2]
      exact (after_exp_sign_suffix _).trans (List.tail_suffix p)
  · rw [if_neg h1]

/-- Wherever the scan stops, it stops at or after the place where it
started. -/
theorem scan_suffix (s : List Char) : (scan s).2 <:+ s := by
  have h1 : (int_scan (sign_scan s)).2 <:+ s :=
    (int_scan_suffix _).trans (sign_scan_suffix s)
  have h2 : (frac_scan (int_scan (sign_scan s)).2).2 <:+ s := (frac_scan_suffix _).trans h1
  have h3 : (exp_scan (frac_scan (int_scan (sign_scan s)).2).2).2 <:+ s :=
    (exp_scan_suffix _).trans h2
  unfold scan
  by_cases a : (int_scan (sign_scan s)).1 = true
  · by_cases b : (frac_scan (int_scan (sign_scan s)).2).1 = true
    · simp only [a, b, if_true]; exact h3
    · simp only [a, b, if_true, if_false]; exact h2
  · simp only [a, if_false]; exact h1

/-- A lexeme of the grammar that is followed by the terminator, a space or a
tab is the longest one the text starts with. -/
theorem isNumber_longest (L rest M r : List Char) (hb : boundary (peek rest) = true)
    (hM : IsNumber M) (h : L ++ rest = M ++ r) : M.length ≤ L.length := by
  rcases List.append_eq_append_iff.mp h with ⟨a, h1, h2⟩ | ⟨a, h1, h2⟩
  · rcases a with _ | ⟨x, a⟩
    · rw [h1]; simp
    · exfalso
      have hx : x ∈ M := by rw [h1]; simp
      have hp : peek rest = x := by rw [h2]; rfl
      rw [hp] at hb
      have hc := (isNumber_chars hM).2 x hx
      rcases (boundary_iff x).mp hb with rfl | rfl | rfl <;> revert hc <;> decide
  · rw [h1]; simp

/-- C18: a recognizer returns with the cursor at or after the place where it
was called (what is left at the cursor is an end piece of what was left at
the call), and when it returns Ok the cursor is past the lexeme: 4 characters
on for `true`, 5 for `false`, 4 for `null`, and for a number past the longest
start of the text that matches the number grammar. -/
theorem recognizer_cursor {F : Type} (libc : Libc F) (v : lept_value F) (s : List Char) :
    (∃ st c w, lept_parse_true { json := 't' :: s } v = .ok (st, c, w) ∧
      c.json <:+ 't' :: s ∧
      (st = LEPT_PARSE_OK → 't' :: s = ['t', 'r', 'u', 'e'] ++ c.json ∧
        ('t' :: s).length = c.json.length + 4)) ∧
    (∃ st c w, lept_parse_false { json := 'f' :: s } v = .ok (st, c, w) ∧
      c.json <:+ 'f' :: s ∧
      (st = LEPT_PARSE_OK → 'f' :: s = ['f', 'a', 'l', 's', 'e'] ++ c.json ∧
        ('f' :: s).length = c.json.length + 5)) ∧
    (∃ st c w, lept_parse_null { json := 'n' :: s } v = .ok (st, c, w) ∧
      c.json <:+ 'n' :: s ∧
      (st = LEPT_PARSE_OK → 'n' :: s = ['n', 'u', 'l', 'l'] ++ c.json ∧
        ('n' :: s).length = c.json.length + 4)) ∧
    (∃ st c w, lept_parse_number libc { json := s } v = .ok (st, c, w) ∧
      c.json <:+ s ∧
      (st = LEPT_PARSE_OK → ∃ L, s = L ++ c.json ∧ IsNumber L ∧
        s.length = c.json.length + L.length ∧
        ∀ M r, s = M ++ r → IsNumber M → M.length ≤ L.length)) := by
  refine ⟨?_, ?_, ?_, ?_⟩
  · by_cases hm : ∃ r, s = 'r' :: 'u' :: 'e' :: r
    · obtain ⟨r, rfl⟩ := hm
      refine ⟨_, _, _, lept_parse_true_match r v, ⟨['t', 'r', 'u', 'e'], rfl⟩, fun _ => ?_⟩
      exact ⟨rfl, by simp⟩
    · exact ⟨_, _, _, lept_parse_true_mismatch s v (fun r hr => hm ⟨r, hr⟩),
        List.suffix_cons 't' s, fun h => by cases h⟩
  · by_cases hm : ∃ r, s = 'a' :: 'l' :: 's' :: 'e' :: r
    · obtain ⟨r, rfl⟩ := hm
      refine ⟨_, _, _, lept_parse_false_match r v, ⟨['f', 'a', 'l', 's', 'e'], rfl⟩,
        fun _ => ?_⟩
      exact ⟨rfl, by simp⟩
    · exact ⟨_, _, _, lept_parse_false_mismatch s v (fun r hr => hm ⟨r, hr⟩),
        List.suffix_cons 'f' s, fun h => by cases h⟩
  · by_cases hm : ∃ r, s = 'u' :: 'l' :: 'l' :: r
    · obtain ⟨r, rfl⟩ := hm
      refine ⟨_, _, _, lept_parse_null_match r v, ⟨['n', 'u', 'l', 'l'], rfl⟩, fun _ => ?_⟩
      exact ⟨rfl, by simp⟩
    · exact ⟨_, _, _, lept_parse_null_mismatch s v (fun r hr => hm ⟨r, hr⟩),
        List.suffix_cons 'n' s, fun h => by cases h⟩
  · rw [lept_parse_number_eq]
    by_cases ha : (scan s).1 = true ∧ boundary (peek (scan s).2) = true
    · by_cases hb : tooBig libc s = true
      · rw [if_pos ha, if_pos hb]
        exact ⟨_, _, _, rfl, List.suffix_refl s, fun h => by cases h⟩
      · rw [if_pos ha, if_neg hb]
        refine ⟨_, _, _, rfl, scan_suffix s, fun _ => ?_⟩
        obtain ⟨L, hs, hL⟩ := scan_sound s ha.1
        refine ⟨L, hs, hL, ?_, fun M r hM hMn => ?_⟩
        · conv_lhs => rw [hs]
          rw [List.length_append, Nat.add_comm]
        · exact isNumber_longest L (scan s).2 M r ha.2 hMn (hs.symm.trans hM)
    · rw [if_neg ha]
      exact ⟨_, _, _, rfl, scan_suffix s, fun h => by cases h⟩

/-! ## Leading zeros in the exponent -/

theorem foldl_zeros (zeros : List Char) (hz : ∀ z ∈ zeros, z = '0') :
    zeros.foldl (fun acc ch => 10 * acc + (ch.toNat - 48)) 0 = 0 := by
  induction zeros with
  | nil => rfl
  | cons z zs ih =>
    have h0 : z = '0' := hz z (List.mem_cons_self z zs)
    subst h0
    rw [List.foldl_cons]
    exact ih (fun y hy => hz y (List.mem_cons_of_mem _ hy))

theorem digitsValue_zeros (zeros t : List Char) (hz : ∀ z ∈ zeros, z = '0') :
    digitsValue (zeros ++ t) = digitsValue t := by
  unfold digitsValue
  rw [List.foldl_append, foldl_zeros zeros hz]

theorem exponentValue_digit (x : Char) (u : List Char) (h1 : x ≠ '-') (h2 : x ≠ '+') :
    exponentValue (x :: u) = (digitsValue (x :: u) : Int) := by
  unfold exponentValue
  split
  · rename_i h; cases h; exact absurd rfl h1
  · rename_i h; cases h; exact absurd rfl h2
  · rfl

theorem zeros_digits_cons (zeros : List Char) (d : Char) (ds : List Char)
    (hz : ∀ z ∈ zeros, z = '0') (hd : Digit d) (hds : Digits ds) :
    ∃ x xs, zeros ++ d :: ds = x :: xs ∧ Digit x ∧ Digits xs := by
  cases zeros with
  | nil => exact ⟨d, ds, rfl, hd, hds⟩
  | cons z zs =>
    have h0 : z = '0' := hz z (List.mem_cons_self z zs)
    refine ⟨z, zs ++ d :: ds, rfl, by rw [h0]; decide, ?_⟩
    intro ch hch
    rcases List.mem_append.mp hch with h | h
    · rw [hz ch (List.mem_cons_of_mem _ h)]; decide
    · rcases List.mem_cons.mp h with h | h
      · rw [h]; exact hd
      · exact hds ch h

/-- Zeros put in front of the digits of an exponent do not change the
exponent. -/
theorem exponentValue_zeros (sgn zeros : List Char) (d : Char) (ds : List Char)
    (hsgn : sgn = [] ∨ sgn = ['+'] ∨ sgn = ['-']) (hz : ∀ z ∈ zeros, z = '0')
    (hd : Digit d) (hds : Digits ds) :
    exponentValue (sgn ++ (zeros ++ d :: ds)) = exponentValue (sgn ++ d :: ds) := by
  have hne : ∀ x, Digit x → x ≠ '-' ∧ x ≠ '+' := by
    intro x hx
    constructor <;> (rintro rfl; revert hx; decide)
  rcases hsgn with rfl | rfl | rfl
  · obtain ⟨x, xs, hx, hxd, -⟩ := zeros_digits_cons zeros d ds hz hd hds
    rw [List.nil_append, List.nil_append, exponentValue_digit d ds (hne d hd).1 (hne d hd).2,
      hx, exponentValue_digit x xs (hne x hxd).1 (hne x hxd).2, ← hx,
      digitsValue_zeros zeros _ hz]
  · show (digitsValue (zeros ++ d :: ds) : Int) = (digitsValue (d :: ds) : Int)
    rw [digitsValue_zeros zeros _ hz]
  · show - (digitsValue (zeros ++ d :: ds) : Int) = - (digitsValue (d :: ds) : Int)
    rw [digitsValue_zeros zeros _ hz]

theorem takeWhile_mantissa (p : Char → Bool) (pre : List Char) (e : Char) (t : List Char)
    (hpre : ∀ ch ∈ pre, p ch = true) (he : p e = false) :
    (pre ++ e :: t).takeWhile p = pre ∧ (pre ++ e :: t).dropWhile p = e :: t := by
  induction pre with
  | nil => simp [List.takeWhile, List.dropWhile, he]
  | cons x xs ih =>
    have hx : p x = true := hpre x (List.mem_cons_self x xs)
    have ih' := ih (fun ch hch => hpre ch (List.mem_cons_of_mem _ hch))
    simp [List.takeWhile, List.dropWhile, hx, ih'.1, ih'.2]

theorem mantissa_chars (sg i f : List Char) (hsg : sg = [] ∨ sg = ['-']) (hi : IsInt i)
    (hf : f = [] ∨ IsFrac f) :
    ∀ ch ∈ sg ++ (i ++ f), decide (ch ≠ 'e' ∧ ch ≠ 'E') = true := by
  have hdig : ∀ ch, Digit ch → decide (ch ≠ 'e' ∧ ch ≠ 'E') = true := by
    intro ch h
    simp only [Digit, List.mem_cons, List.mem_singleton] at h
    rcases h with h | h | h | h | h | h | h | h | h | h | h <;>
      first | (subst h; decide) | simp at h
  intro ch hch
  rcases List.mem_append.mp hch with h | h
  · rcases hsg with rfl | rfl
    · simp at h
    · rw [List.mem_singleton.mp h]; decide
  rcases List.mem_append.mp h with h | h
  · rcases hi with rfl | ⟨d, ds, rfl, hd, -, hds⟩
    · rw [List.mem_singleton.mp h]; decide
    · rcases List.mem_cons.mp h with h | h
      · rw [h]; exact hdig d hd
      · exact hdig ch (hds ch h)
  · rcases hf with rfl | ⟨d, ds, rfl, hd, hds⟩
    · simp at h
    · rcases List.mem_cons.mp h with h | h
      · rw [h]; decide
      rcases List.mem_cons.mp h with h | h
      · rw [h]; exact hdig d hd
      · exact hdig ch (hds ch h)

/-- Zeros put in front of the digits of the exponent of a lexeme do not
change its mathematical value. -/
theorem decimalValue_zeros (sg i f : List Char) (e : Char) (sgn zeros : List Char) (d : Char)
    (ds : List Char) (hsg : sg = [] ∨ sg = ['-']) (hi : IsInt i) (hf : f = [] ∨ IsFrac f)
    (he : e = 'e' ∨ e = 'E') (hsgn : sgn = [] ∨ sgn = ['+'] ∨ sgn = ['-'])
    (hz : ∀ z ∈ zeros, z = '0') (hd : Digit d) (hds : Digits ds) :
    decimalValue (sg ++ (i ++ (f ++ e :: (sgn ++ (zeros ++ d :: ds))))) =
      decimalValue (sg ++ (i ++ (f ++ e :: (sgn ++ d :: ds)))) := by
  have hpe : decide (e ≠ 'e' ∧ e ≠ 'E') = false := by
    rcases he with rfl | rfl <;> decide
  have hassoc : ∀ t : List Char, sg ++ (i ++ (f ++ e :: t)) = (sg ++ (i ++ f)) ++ e :: t := by
    intro t; simp only [List.append_assoc]
  have hm := mantissa_chars sg i f hsg hi hf
  have h1 := takeWhile_mantissa (fun ch => decide (ch ≠ 'e' ∧ ch ≠ 'E')) (sg ++ (i ++ f)) e
    (sgn ++ (zeros ++ d :: ds)) hm hpe
  have h2 := takeWhile_mantissa (fun ch => decide (ch ≠ 'e' ∧ ch ≠ 'E')) (sg ++ (i ++ f)) e
    (sgn ++ d :: ds) hm hpe
  unfold decimalValue
  rw [hassoc, hassoc, h1.1, h1.2, h2.1, h2.2, List.drop_one, List.drop_one, List.tail_cons,
    List.tail_cons, exponentValue_zeros sgn zeros d ds hsgn hz hd hds]

/-- The driver on a text that is a lexeme of the grammar whose conversion is
finite. -/
theorem lept_parse_lexeme {F : Type} (libc : Libc F) (v : lept_value F) (L : List Char)
    (hL : IsNumber L) (hfin : tooBig libc L = false) :
    lept_parse libc v L = .ok (LEPT_PARSE_OK, { n := libc.strtod L, type := LEPT_NUMBER }) := by
  have h := lept_parse_number_text libc v [] L [] (by decide) hL (by decide)
  rw [List.nil_append, List.append_nil] at h
  rw [h]
  have hb : boundary (peek []) = true := by decide
  have hp : ¬ peek (skip_whitespace []) ≠ NUL := by decide
  rw [if_pos hb, hfin, if_neg (by decide), if_neg hp]

theorem scan_leading_zero (d : Char) (rest : List Char) (hd : Digit d) :
    (scan ('0' :: d :: rest)).1 = false ∧ (scan ('-' :: '0' :: d :: rest)).1 = false := by
  have h : isdigit d = true := (isdigit_iff d).mpr hd
  have h0 : isdigit '0' = true := by decide
  constructor <;> simp [scan, sign_scan, int_scan, peek_cons, h, h0]

theorem zeros_int_cons (zeros i rest : List Char) (hne : zeros ≠ [])
    (hz : ∀ z ∈ zeros, z = '0') (hi : IsInt i) :
    ∃ x r, zeros ++ (i ++ rest) = '0' :: x :: r ∧ Digit x := by
  rcases zeros with _ | ⟨z, zs⟩
  · exact absurd rfl hne
  have h0 : z = '0' := hz z (List.mem_cons_self z zs)
  subst h0
  rcases zs with _ | ⟨y, ys⟩
  · obtain ⟨x, t, hx, hxd⟩ := signed_int_cons [] i rest (Or.inl rfl) hi
    rw [List.nil_append] at hx
    refine ⟨x, t, by rw [hx]; rfl, ?_⟩
    rcases hxd with rfl | hxd
    · have hp := isInt_peek_digit hi rest
      rw [hx, peek_cons] at hp
      exact absurd hp (by decide)
    · exact hxd
  · have hy : y = '0' := hz y (List.mem_cons_of_mem _ (List.mem_cons_self y ys))
    exact ⟨y, ys ++ (i ++ rest), rfl, by rw [hy]; decide⟩

theorem peek_signed_int (sg i r r' : List Char) (hsg : sg = [] ∨ sg = ['-']) (hi : IsInt i) :
    peek (sg ++ (i ++ r)) = peek (sg ++ (i ++ r')) := by
  rcases hsg with rfl | rfl
  · rcases hi with rfl | ⟨d, ds, rfl, -, -, -⟩ <;> rfl
  · rfl

/-- C14: take a lexeme with an exponent part and put any number of `0` in
front of the digits of its exponent.  The new text is accepted by the grammar:
when its conversion is finite, `lept_parse` returns Ok with the tag Number.
For a C library whose conversion rounds the mathematical value of the lexeme
(and may look at its sign), when the conversion of the original lexeme is
finite, `lept_parse` returns Ok with the tag Number on both texts, with the
same payload.  With at least one `0` put in front of the integer part instead,
`lept_parse` returns InvalidValue. -/
theorem lept_parse_exponent_zeros {F : Type} (libc : Libc F)
    (v : lept_value F) (sg i f : List Char) (e : Char) (sgn zeros : List Char) (d : Char)
    (ds : List Char)
    (hsg : sg = [] ∨ sg = ['-']) (hi : IsInt i) (hf : f = [] ∨ IsFrac f)
    (he : e = 'e' ∨ e = 'E') (hsgn : sgn = [] ∨ sgn = ['+'] ∨ sgn = ['-'])
    (hz : ∀ z ∈ zeros, z = '0') (hd : Digit d) (hds : Digits ds) :
    (tooBig libc (sg ++ (i ++ (f ++ e :: (sgn ++ (zeros ++ d :: ds))))) = false →
      lept_parse libc v (sg ++ (i ++ (f ++ e :: (sgn ++ (zeros ++ d :: ds))))) =
        .ok (LEPT_PARSE_OK,
          { n := libc.strtod (sg ++ (i ++ (f ++ e :: (sgn ++ (zeros ++ d :: ds))))),
            type := LEPT_NUMBER })) ∧
    (∀ round : Bool → ℚ → F, Converts libc round →
      tooBig libc (sg ++ (i ++ (f ++ e :: (sgn ++ d :: ds)))) = false →
      lept_parse libc v (sg ++ (i ++ (f ++ e :: (sgn ++ (zeros ++ d :: ds))))) =
        .ok (LEPT_PARSE_OK,
          { n := libc.strtod (sg ++ (i ++ (f ++ e :: (sgn ++ d :: ds)))),
            type := LEPT_NUMBER }) ∧
      lept_parse libc v (sg ++ (i ++ (f ++ e :: (sgn ++ d :: ds)))) =
        .ok (LEPT_PARSE_OK,
          { n := libc.strtod (sg ++ (i ++ (f ++ e :: (sgn ++ d :: ds)))),
            type := LEPT_NUMBER })) ∧
    (zeros ≠ [] →
      lept_parse libc v (sg ++ (zeros ++ (i ++ (f ++ e :: (sgn ++ d :: ds))))) =
        .ok (LEPT_PARSE_INVALID_VALUE, { n := v.n, type := LEPT_NULL })) := by
  have hL : IsNumber (sg ++ (i ++ (f ++ e :: (sgn ++ d :: ds)))) :=
    ⟨sg, i, f, e :: (sgn ++ d :: ds), rfl, hsg, hi, hf,
      Or.inr ⟨e, sgn, d, ds, rfl, he, hsgn, hd, hds⟩⟩
  obtain ⟨x, xs, hx, hxd, hxs⟩ := zeros_digits_cons zeros d ds hz hd hds
  have hL' : IsNumber (sg ++ (i ++ (f ++ e :: (sgn ++ (zeros ++ d :: ds))))) :=
    ⟨sg, i, f, e :: (sgn ++ (zeros ++ d :: ds)), rfl, hsg, hi, hf,
      Or.inr ⟨e, sgn, x, xs, by rw [hx], he, hsgn, hxd, hxs⟩⟩
  refine ⟨fun hfin' => lept_parse_lexeme libc v _ hL' hfin', fun round hconv hfin => ?_,
    fun hne => ?_⟩
  · have hval : libc.strtod (sg ++ (i ++ (f ++ e :: (sgn ++ (zeros ++ d :: ds))))) =
        libc.strtod (sg ++ (i ++ (f ++ e :: (sgn ++ d :: ds)))) := by
      rw [hconv _ hL', hconv _ hL,
        decimalValue_zeros sg i f e sgn zeros d ds hsg hi hf he hsgn hz hd hds,
        peek_signed_int sg i (f ++ e :: (sgn ++ (zeros ++ d :: ds)))
          (f ++ e :: (sgn ++ d :: ds)) hsg hi]
    have hfin' : tooBig libc (sg ++ (i ++ (f ++ e :: (sgn ++ (zeros ++ d :: ds))))) =
        false := by
      unfold tooBig at hfin ⊢
      rw [hval]
      exact hfin
    refine ⟨?_, lept_parse_lexeme libc v _ hL hfin⟩
    rw [lept_parse_lexeme libc v _ hL' hfin', hval]
  · obtain ⟨y, r, hy, hyd⟩ := zeros_int_cons zeros i (f ++ e :: (sgn ++ d :: ds)) hne hz hi
    rw [hy]
    rcases hsg with rfl | rfl
    · exact lept_parse_scan_fails libc v [] '0' _ (by decide) (by decide) (by decide)
        (by decide) (by decide) (by decide) (scan_leading_zero y r hyd).1
    · exact lept_parse_scan_fails libc v [] '-' _ (by decide) (by decide) (by decide)
        (by decide) (by decide) (by decide) (scan_leading_zero y r hyd).2

theorem decimalValue_1e7 : decimalValue ['1', 'e', '7'] = 10000000 := by
  have h1 : (['1', 'e', '7'].takeWhile fun ch => ch ≠ 'e' ∧ ch ≠ 'E') = ['1'] := by decide
  have h2 : ((['1', 'e', '7'].dropWhile fun ch => ch ≠ 'e' ∧ ch ≠ 'E').drop 1) = ['7'] := by
    decide
  have h3 : exponentValue ['7'] = 7 := by decide
  have h4 : mantissaValue ['1'] = 1 := by
    have a1 : peek ['1'] ≠ '-' := by decide
    have a2 : (['1'].takeWhile fun ch => ch ≠ '.') = ['1'] := by decide
    have a3 : ((['1'].dropWhile fun ch => ch ≠ '.').drop 1) = [] := by decide
    have a4 : digitsValue ['1'] = 1 := by decide
    have a5 : digitsValue [] = 0 := by decide
    simp only [mantissaValue, a1, if_false, a2, a3, a4, a5]
    norm_num
  unfold decimalValue
  rw [h1, h2, h3, h4]
  norm_num

theorem strtod_1e7 : exactLibc.strtod ['1', 'e', '7'] = (false, 10000000) := by
  show signedRound (decide (peek ['1', 'e', '7'] = '-')) (decimalValue ['1', 'e', '7']) =
    (false, 10000000)
  have hs : decide (peek ['1', 'e', '7'] = '-') = false := by decide
  rw [decimalValue_1e7, hs]
  unfold signedRound saturate
  norm_num

theorem tooBig_1e7 : tooBig exactLibc ['1', 'e', '7'] = false := by
  unfold tooBig
  rw [strtod_1e7]
  simp only [exactLibc]
  norm_num

/-- The stand-in library keeps the sign of a zero: the conversions of `-0`
and of `0` differ, and it meets the contract of the conversion. -/
theorem exactLibc_converts :
    Converts exactLibc signedRound ∧ exactLibc.strtod ['-', '0'] ≠ exactLibc.strtod ['0'] := by
  refine ⟨fun _ _ => rfl, ?_⟩
  intro h
  have h1 : (exactLibc.strtod ['-', '0']).1 = true := by decide
  have h2 : (exactLibc.strtod ['0']).1 = false := by decide
  rw [h, h2] at h1
  cases h1

theorem lept_parse_exponent_zeros_witness :
    Converts exactLibc signedRound ∧ IsInt ['1'] ∧ (∀ z ∈ ['0', '0'], z = '0') ∧ Digit '7' ∧
    Digits [] ∧ tooBig exactLibc ([] ++ (['1'] ++ ([] ++ 'e' :: ([] ++ '7' :: [])))) = false ∧
    lept_parse exactLibc { n := (false, 0), type := LEPT_TRUE }
        ([] ++ (['1'] ++ ([] ++ 'e' :: ([] ++ (['0', '0'] ++ '7' :: []))))) =
      .ok (LEPT_PARSE_OK, { n := (false, 10000000), type := LEPT_NUMBER }) ∧
    lept_parse exactLibc { n := (false, 0), type := LEPT_TRUE }
        ([] ++ (['1'] ++ ([] ++ 'e' :: ([] ++ '7' :: [])))) =
      .ok (LEPT_PARSE_OK, { n := (false, 10000000), type := LEPT_NUMBER }) ∧
    lept_parse exactLibc { n := (false, 0), type := LEPT_TRUE }
        ([] ++ (['0', '0'] ++ (['1'] ++ ([] ++ 'e' :: ([] ++ '7' :: []))))) =
      .ok (LEPT_PARSE_INVALID_VALUE, { n := (false, 0), type := LEPT_NULL }) :=
  have hi : IsInt ['1'] := Or.inr ⟨'1', [], rfl, by decide, by decide, by decide⟩
  have hz : ∀ z ∈ ['0', '0'], z = '0' := by decide
  have h := lept_parse_exponent_zeros exactLibc { n := (false, 0), type := LEPT_TRUE }
    [] ['1'] [] 'e' [] ['0', '0'] '7' [] (Or.inl rfl) hi (Or.inl rfl)
    (Or.inl rfl) (Or.inl rfl) hz (by decide) (by decide)
  have h2 := h.2.1 signedRound (fun _ _ => rfl) tooBig_1e7
  ⟨fun _ _ => rfl, hi, hz, by decide, by decide, tooBig_1e7,
    strtod_1e7 ▸ h2.1, strtod_1e7 ▸ h2.2, h.2.2 (by decide)⟩

end LeptJson
